import Mathlib

/-!
# Verification of the STL-to-MILP encoder (`templogic/stlmilp/stl_milp_encode.py`)

A shallow embedding of the recursive STL constraint encoder.  The MILP model is
embedded as an explicit state (a list of variables and a list of constraints)
that is threaded through the recursion; Python exceptions are embedded with
`Except`; the Gurobi sentinel `GRB.UNDEFINED` used for "no warm start" is
embedded as `Option.none` in the `start` attribute of a variable; numeric data
(signal values, bounds, robustness scalars) is embedded with `ℚ`.

The module `milp_util` (providing `add_min_constr`, `add_max_constr`) and the
`stl` module (providing `Formula.horizon`) are consumed by the source file but
are not part of the sources; they are modelled from the specification where
needed (see the doc comments of `add_min_constr`, `add_max_constr` and
`Formula.horizon`).
-/

namespace StlMilp

/-- Python exceptions that the encoder can raise: `IndexError` from
`start_robustness_tree.children[i]` on a too-short child list, and
`AttributeError` from `None.setAttr(...)` in `build_and_solve` when the
encoder returned `None` for the top-level formula. -/
inductive Err where
  | indexError
  | attrError
deriving DecidableEq, Repr

/-- A decision variable of the MILP model: name, lower/upper bound
(`none` = unbounded), whether it is a binary selector variable, the warm-start
value (`none` embeds Gurobi's `GRB.UNDEFINED`, i.e. "unset"), and the
objective coefficient. -/
structure VarInfo where
  name : String
  lb : Option ℚ
  ub : Option ℚ
  binary : Bool
  start : Option ℚ
  obj : ℚ
deriving DecidableEq, Repr

/-- Linear constraints emitted by the encoder: `eqSig y v` is
`m.addConstr(y == expr)` where the signal expression evaluates to `v`;
`eqNeg y x` is `m.addConstr(y == -x)`; the remaining forms are the
constraints of the big-M min/max encodings of `milp_util`
(`extLe y x` is `y ≤ x`, `bigMGe y x z K` is `y ≥ x - K*(1 - z)`,
`extGe y x` is `y ≥ x`, `bigMLe y x z K` is `y ≤ x + K*(1 - z)`, and
`selOne zs` says the binary selectors `zs` sum to one). -/
inductive Constr where
  | eqSig (y : String) (v : ℚ)
  | eqNeg (y x : String)
  | extLe (y x : String)
  | extGe (y x : String)
  | bigMGe (y x z : String) (K : ℚ)
  | bigMLe (y x z : String) (K : ℚ)
  | selOne (zs : List String)
deriving DecidableEq, Repr

/-- The MILP model being built: Gurobi's `Model` restricted to the
operations the encoder uses (`addVar`, `addConstr`, attribute setting).
Both lists grow by appending, mirroring mutation of the Gurobi model. -/
structure Model where
  vars : List VarInfo
  constrs : List Constr
deriving DecidableEq, Repr

/-- The empty model produced by `create_milp`. -/
def Model.empty : Model := { vars := [], constrs := [] }

/-- `RobustnessTree`: a warm-start carrier mirroring the formula shape.
Each node has a `robustness` scalar, an optional start-vector `index`, and a
list of children; a child may be `none` ("no hint for this subtree"), which
the code treats like an absent tree. -/
inductive RTree where
  | node (robustness : ℚ) (index : Option Nat) (children : List (Option RTree))
deriving Repr

def RTree.robustness : RTree → ℚ
  | .node r _ _ => r

def RTree.index : RTree → Option Nat
  | .node _ i _ => i

def RTree.children : RTree → List (Option RTree)
  | .node _ _ c => c

/-- STL formulas, as dispatched on by `add_stl_constr` (`stl.EXPR`, `stl.NOT`,
`stl.AND`, `stl.OR`, `stl.ALWAYS`, `stl.NEXT`, `stl.EVENTUALLY`).  An `expr`
leaf carries the signal lookup `signal t` (the value of
`f.args[0].signal(m, t)`; `none` when the signal is undefined at `t`) and the
static `bounds` pair of the leaf. `always`/`eventually` carry the inclusive
window `[a, b]`. -/
inductive Formula where
  | expr (signal : Int → Option ℚ) (bounds : ℚ × ℚ)
  | not (arg : Formula)
  | and (args : List Formula)
  | or (args : List Formula)
  | always (a b : Int) (arg : Formula)
  | eventually (a b : Int) (arg : Formula)
  | next (arg : Formula)

/-- The idiom `r = start_robustness_tree.robustness if start_robustness_tree
is not None else GRB.UNDEFINED` (`GRB.UNDEFINED`, i.e. "start unset", is
embedded as `none`). -/
def startOf : Option RTree → Option ℚ
  | some tr => some tr.robustness
  | none => none

/-- The idiom `r, index = tree.robustness, tree.index` when the tree is
present, else `GRB.UNDEFINED, None` (lines 63-66 and 106-109). -/
def startIxOf : Option RTree → Option ℚ × Option Nat
  | some tr => (some tr.robustness, tr.index)
  | none => (none, none)

/-- `start_robustness_tree.children[i]` guarded by the `is not None` check:
an absent tree yields an absent child tree; a present tree raises
`IndexError` when `i` is out of range (Python list indexing). -/
def childTree (tree : Option RTree) (i : Nat) : Except Err (Option RTree) :=
  match tree with
  | none => .ok none
  | some tr =>
    match tr.children.get? i with
    | some c => .ok c
    | none => .error .indexError

/-- `bounds = map(max, zip(*boundss))`: the element-wise maximum of the
collected children's bounds pairs (of the signed values), `none` on an empty
collection (in the source this code is guarded by `len(xx) > 0`). -/
def combineBounds : List (ℚ × ℚ) → Option (ℚ × ℚ)
  | [] => none
  | b :: rest => some ((rest.map Prod.fst).foldl max b.1, (rest.map Prod.snd).foldl max b.2)

/-- Modelled from the spec: `add_min_constr` from the `milp_util` module,
which is not under the sources.  Per the specification (§4.2 Min/Max
Encoder): it creates a fresh variable `y` named `label`, one binary selector
per input variable, constraints `y ≤ x_i` for all `i` plus a big-M
inequality `y ≥ x_i - K*(1 - z_i)` tight only for the selected branch, and a
constraint forcing exactly one selector active; the start hint `start` seeds
`y`, and `startIndex` (when present) selects which selector's start bit is
set; when `startIndex` is absent the selector starts are left unset.  It
returns the dictionary of created variables keyed by name, from which the
caller takes `[label]`; here we return that entry directly. -/
def add_min_constr (m : Model) (label : String) (xx : List String) (K : ℚ)
    (_nnegative : Bool) (start : Option ℚ) (startIndex : Option Nat) :
    String × Model :=
  let n := xx.length
  let zname := fun i => label ++ "_ind" ++ toString i
  let y : VarInfo :=
    { name := label, lb := none, ub := none, binary := false,
      start := start, obj := 0 }
  let zs : List VarInfo := (List.range n).map (fun i =>
    { name := zname i, lb := some 0, ub := some 1, binary := true,
      start := match startIndex with
               | some j => some (if i = j then 1 else 0)
               | none => none,
      obj := 0 })
  let cs : List Constr :=
    (xx.enum.map (fun p => [Constr.extLe label p.2, Constr.bigMGe label p.2 (zname p.1) K])).flatten
      ++ [Constr.selOne ((List.range n).map zname)]
  (label, { vars := m.vars ++ y :: zs, constrs := m.constrs ++ cs })

/-- Modelled from the spec: `add_max_constr` from the `milp_util` module,
which is not under the sources; the mirror image of `add_min_constr`
(`y ≥ x_i` and `y ≤ x_i + K*(1 - z_i)`). -/
def add_max_constr (m : Model) (label : String) (xx : List String) (K : ℚ)
    (_nnegative : Bool) (start : Option ℚ) (startIndex : Option Nat) :
    String × Model :=
  let n := xx.length
  let zname := fun i => label ++ "_ind" ++ toString i
  let y : VarInfo :=
    { name := label, lb := none, ub := none, binary := false,
      start := start, obj := 0 }
  let zs : List VarInfo := (List.range n).map (fun i =>
    { name := zname i, lb := some 0, ub := some 1, binary := true,
      start := match startIndex with
               | some j => some (if i = j then 1 else 0)
               | none => none,
      obj := 0 })
  let cs : List Constr :=
    (xx.enum.map (fun p => [Constr.extGe label p.2, Constr.bigMLe label p.2 (zname p.1) K])).flatten
      ++ [Constr.selOne ((List.range n).map zname)]
  (label, { vars := m.vars ++ y :: zs, constrs := m.constrs ++ cs })

/-- The shared tail of `_stl_and_or` and `_stl_always_eventually`
(lines 58-71 and 101-114 of the source): given the collected variables `xx`
and bounds `boundss` of the successfully encoded children, if at least one
child was encoded, combine the bounds element-wise (`bounds = map(max,
zip(*boundss))`), set `K = max(map(abs, bounds))`, and call the min
(`useMin = true`, for `and`/`alw`) or max encoder with the start data of the
node's robustness-tree node; otherwise return `(None, None)` and leave the
model untouched.  In the source the guard is `len(xx) > 0`; `xx` and
`boundss` are pushed in lockstep, so we guard on `boundss`. -/
def finishMinMax (m : Model) (label : String) (useMin : Bool) (xx : List String)
    (boundss : List (ℚ × ℚ)) (tree : Option RTree) :
    Option (String × ℚ × ℚ) × Model :=
  match combineBounds boundss with
  | none => (none, m)
  | some (lo, hi) =>
    let K := max |lo| |hi|
    let ri := startIxOf tree
    let ym := (if useMin then add_min_constr else add_max_constr)
                m label xx K false ri.1 ri.2
    (some (ym.1, lo, hi), ym.2)

mutual

/-- `add_stl_constr(m, label, f, t, start_robustness_tree)`: dispatch on
`f.op` to the per-operator encoders `_stl_expr`, `_stl_not`, `_stl_and`,
`_stl_or`, `_stl_always`, `_stl_eventually`, `_stl_next`, which are inlined
here as match arms (the source helpers are one-liners delegating to
`_stl_and_or` / `_stl_always_eventually` with `op` strings `"and"`, `"or"`,
`"alw"`, `"eve"`). -/
def add_stl_constr (m : Model) (label : String) (f : Formula) (t : Int)
    (tree : Option RTree) : Except Err (Option (String × ℚ × ℚ) × Model) :=
  match f with
  | .expr signal bounds =>
    match signal t with
    | some v =>
      let y : VarInfo :=
        { name := label, lb := some bounds.1, ub := some bounds.2,
          binary := false, start := startOf tree, obj := 0 }
      .ok (some (label, bounds.1, bounds.2),
           { vars := m.vars ++ [y], constrs := m.constrs ++ [.eqSig label v] })
    | none => .ok (none, m)
  | .not (.not gg) => do
    let tree1 ← childTree tree 0
    let tree2 ← childTree tree1 0
    add_stl_constr m label gg t tree2
  | .not g => do
    let tree1 ← childTree tree 0
    let rm ← add_stl_constr m (label ++ "_not") g t tree1
    match rm.1 with
    | some xb =>
      let y : VarInfo :=
        { name := label, lb := some xb.2.1, ub := some xb.2.2,
          binary := false, start := startOf tree, obj := 0 }
      .ok (some (label, xb.2.1, xb.2.2),
           { vars := rm.2.vars ++ [y], constrs := rm.2.constrs ++ [.eqNeg label xb.1] })
    | none => .ok (none, rm.2)
  | .and args => do
    let xbm ← encodeArgs m label "and" args t tree 0
    .ok (finishMinMax xbm.2.2 label true xbm.1 xbm.2.1 tree)
  | .or args => do
    let xbm ← encodeArgs m label "or" args t tree 0
    .ok (finishMinMax xbm.2.2 label false xbm.1 xbm.2.1 tree)
  | .always a b g => do
    let xbm ← encodeWindow m label "alw" g a t tree ((b + 1 - a).toNat) 0
    .ok (finishMinMax xbm.2.2 label true xbm.1 xbm.2.1 tree)
  | .eventually a b g => do
    let xbm ← encodeWindow m label "eve" g a t tree ((b + 1 - a).toNat) 0
    .ok (finishMinMax xbm.2.2 label false xbm.1 xbm.2.1 tree)
  | .next g => add_stl_constr m label g (t + 1) tree
termination_by (sizeOf f, 0)

/-- The child loop of `_stl_and_or` (lines 46-56): iterate over
`enumerate(f.args)` from index `i`, fetch `start_robustness_tree.children[i]`
(possibly raising `IndexError`), encode each child at the same time `t` with
label `label + "_" + op + str(i)`, and collect the variables and bounds of
the children whose encoding is not `None`. -/
def encodeArgs (m : Model) (label op : String) (args : List Formula) (t : Int)
    (tree : Option RTree) (i : Nat) :
    Except Err (List String × List (ℚ × ℚ) × Model) :=
  match args with
  | [] => .ok ([], [], m)
  | ff :: rest => do
    let tri ← childTree tree i
    let rm ← add_stl_constr m (label ++ "_" ++ op ++ toString i) ff t tri
    let xbm ← encodeArgs rm.2 label op rest t tree (i + 1)
    match rm.1 with
    | some xb => .ok (xb.1 :: xbm.1, xb.2 :: xbm.2.1, xbm.2.2)
    | none => .ok (xbm.1, xbm.2.1, xbm.2.2)
termination_by (sizeOf args, 0)

/-- The window loop of `_stl_always_eventually` (lines 90-99): iterate over
`range(b1, b2 + 1)` — here `k` counts the remaining offsets and `j` is the
number already consumed, so the current offset is `i = b1 + j` — fetch
`start_robustness_tree.children[i - b1]` (possibly raising `IndexError`),
encode the single child at time `t + i` with label
`label + "_" + op + str(i)`, and collect the non-`None` results. -/
def encodeWindow (m : Model) (label op : String) (g : Formula) (b1 : Int)
    (t : Int) (tree : Option RTree) (k : Nat) (j : Nat) :
    Except Err (List String × List (ℚ × ℚ) × Model) :=
  match k with
  | 0 => .ok ([], [], m)
  | k' + 1 => do
    let i : Int := b1 + j
    let trj ← childTree tree j
    let rm ← add_stl_constr m (label ++ "_" ++ op ++ toString i) g (t + i) trj
    let xbm ← encodeWindow rm.2 label op g b1 t tree k' (j + 1)
    match rm.1 with
    | some xb => .ok (xb.1 :: xbm.1, xb.2 :: xbm.2.1, xbm.2.2)
    | none => .ok (xbm.1, xbm.2.1, xbm.2.2)
termination_by (sizeOf g, k + 1)

end

mutual

/-- The bounds pair the encoder reports for a node, as a pure function of the
formula and the base time.  It mirrors the recursion of `add_stl_constr`:
a leaf reports its declared bounds when its signal is defined at `t` and
nothing otherwise, a `not` node passes the child's pair through unchanged
(lines 32 and 41 of the source), the four combining operators apply
`combineBounds` to the bounds collected from their non-`None` children, and
`next` shifts time.  That the encoder's reported bounds equal this function
whenever it returns without an exception is proved below (`encode_sim`). -/
def boundsOf : Formula → Int → Option (ℚ × ℚ)
  | .expr s bd, t => (s t).map (fun _ => bd)
  | .not g, t => boundsOf g t
  | .and args, t => combineBounds (collectBounds args t)
  | .or args, t => combineBounds (collectBounds args t)
  | .always a b g, t => combineBounds (windowBounds g a t ((b + 1 - a).toNat) 0)
  | .eventually a b g, t => combineBounds (windowBounds g a t ((b + 1 - a).toNat) 0)
  | .next g, t => boundsOf g (t + 1)
termination_by f _ => (sizeOf f, 0)

/-- The bounds collected from the non-`None` children of an `and`/`or` node. -/
def collectBounds : List Formula → Int → List (ℚ × ℚ)
  | [], _ => []
  | ff :: rest, t =>
    match boundsOf ff t with
    | some bd => bd :: collectBounds rest t
    | none => collectBounds rest t
termination_by args _ => (sizeOf args, 0)

/-- The bounds collected from the non-`None` window offsets of an
`always`/`eventually` node (`k` remaining offsets, `j` already consumed). -/
def windowBounds : Formula → Int → Int → Nat → Nat → List (ℚ × ℚ)
  | _, _, _, 0, _ => []
  | g, b1, t, k + 1, j =>
    match boundsOf g (t + (b1 + j)) with
    | some bd => bd :: windowBounds g b1 t k (j + 1)
    | none => windowBounds g b1 t k (j + 1)
termination_by g _ _ k _ => (sizeOf g, k + 1)

end

/-- `v :: vs` reduced by `min` (`useMin = true`) or `max`; `none` on `[]`.
The value enforced for the combining variable by the min/max encodings. -/
def extrOf (useMin : Bool) : List ℚ → Option ℚ
  | [] => none
  | v :: vs => some (vs.foldl (fun acc w => if useMin then min acc w else max acc w) v)

mutual

/-- The robustness value the emitted constraints enforce for a node's
variable, given the signal carried by the `expr` leaves: the leaf equality
`y == expr` pins a leaf to its signal value, `y == -x` negates, and per the
Min/Max Encoder contract (spec §4.2, `milp_util` is not under the sources)
the combining variable equals the min/max of the non-`None` children.
The skipping of undefined children mirrors `add_stl_constr`. -/
def robValue : Formula → Int → Option ℚ
  | .expr s _, t => s t
  | .not g, t => (robValue g t).map (fun v => -v)
  | .and args, t => extrOf true (collectRob args t)
  | .or args, t => extrOf false (collectRob args t)
  | .always a b g, t => extrOf true (windowRob g a t ((b + 1 - a).toNat) 0)
  | .eventually a b g, t => extrOf false (windowRob g a t ((b + 1 - a).toNat) 0)
  | .next g, t => robValue g (t + 1)
termination_by f _ => (sizeOf f, 0)

/-- The robustness values of the non-`None` children of an `and`/`or` node. -/
def collectRob : List Formula → Int → List ℚ
  | [], _ => []
  | ff :: rest, t =>
    match robValue ff t with
    | some v => v :: collectRob rest t
    | none => collectRob rest t
termination_by args _ => (sizeOf args, 0)

/-- The robustness values of the non-`None` window offsets of an
`always`/`eventually` node. -/
def windowRob : Formula → Int → Int → Nat → Nat → List ℚ
  | _, _, _, 0, _ => []
  | g, b1, t, k + 1, j =>
    match robValue g (t + (b1 + j)) with
    | some v => v :: windowRob g b1 t k (j + 1)
    | none => windowRob g b1 t k (j + 1)
termination_by g _ _ k _ => (sizeOf g, k + 1)

end

mutual

/-- Modelled from the spec: `Formula.horizon` from the external `stl` module,
which is not under the sources.  Per the specification (§3): "the maximum
time offset reachable by walking the tree accumulating `Next` shifts and
`Always`/`Eventually` upper bounds". -/
def Formula.horizon : Formula → Int
  | .expr _ _ => 0
  | .not g => g.horizon
  | .and args => horizonList args
  | .or args => horizonList args
  | .always _ b g => b + g.horizon
  | .eventually _ b g => b + g.horizon
  | .next g => 1 + g.horizon
termination_by f => (sizeOf f, 0)

/-- Maximum horizon over a list of children (0 for the empty list). -/
def horizonList : List Formula → Int
  | [] => 0
  | f :: fs => max f.horizon (horizonList fs)
termination_by fs => (sizeOf fs, 0)

end

/-- The attributes of a variable other than its warm-start value. -/
def VarInfo.shape (v : VarInfo) : String × Option ℚ × Option ℚ × Bool × ℚ :=
  (v.name, v.lb, v.ub, v.binary, v.obj)

/-- The model with all warm-start hints erased: the variables minus their
`start` attributes, and the constraints.  Two models with the same shape
differ at most in start hints. -/
def Model.shape (m : Model) : List (String × Option ℚ × Option ℚ × Bool × ℚ) × List Constr :=
  (m.vars.map VarInfo.shape, m.constrs)

/-- `fvar.setAttr("obj", spec_obj)`: set the objective coefficient of the
named variable. -/
def Model.setObjCoeff (m : Model) (name : String) (c : ℚ) : Model :=
  { m with vars := m.vars.map (fun v => if v.name = name then { v with obj := c } else v) }

/-- `build_and_solve(spec, model_encode_f, spec_obj, start_robustness_tree)`
up to the hand-off to the external solver: compute the horizon, create the
model, run the system-constraint callback, and — when a specification is
given — encode it with label `"spec"` (the call omits `t`, whose default is
`0`) and put the resulting robustness variable into the objective.  When the
encoder returns `(None, None)`, the source executes `None.setAttr(...)`,
which raises `AttributeError`; parameter setting, `optimize()` and the
status check are the external solver's side and are outside the embedding
(the model returned here is the one handed to it). -/
def build_and_solve (spec : Option Formula) (model_encode_f : Model → Int → Model)
    (spec_obj : ℚ) (start_robustness_tree : Option RTree) : Except Err Model :=
  let hd : Int :=
    match spec with
    | some f => max 0 f.horizon + 1
    | none => 0
  let m := model_encode_f Model.empty hd
  match spec with
  | some f => do
    let rm ← add_stl_constr m "spec" f 0 start_robustness_tree
    match rm.1 with
    | some ybd => .ok (rm.2.setObjCoeff ybd.1 spec_obj)
    | none => .error .attrError
  | none => .ok m

/-- The result component of a successful encoder run, as a pure function:
the returned variable is always named `label`, and the bounds are
`boundsOf` (proved in `encode_sim`). -/
def bres (f : Formula) (t : Int) (label : String) : Option (String × ℚ × ℚ) :=
  (boundsOf f t).map (fun bd => (label, bd.1, bd.2))

mutual

/-- Shape agreement between a robustness tree and a formula, following the
specification (§3): one tree node per formula node, `children[i]`
corresponding to `Formula.args[i]`, an `always`/`eventually` node
pre-expanded to one child per offset of `[a, b]`, and a `next` node sharing
its child's tree node (the code passes the tree through unchanged); a
`none` child means "no warm-start hint" and matches anything. -/
inductive Matches : RTree → Formula → Prop where
  | expr : ∀ (r : ℚ) (ix : Option Nat) (s : Int → Option ℚ) (bd : ℚ × ℚ),
      Matches (.node r ix []) (.expr s bd)
  | not : ∀ (r : ℚ) (ix : Option Nat) (c : Option RTree) (g : Formula),
      MatchesO c g → Matches (.node r ix [c]) (.not g)
  | and : ∀ (r : ℚ) (ix : Option Nat) (cs : List (Option RTree)) (args : List Formula),
      MatchesList cs args → Matches (.node r ix cs) (.and args)
  | or : ∀ (r : ℚ) (ix : Option Nat) (cs : List (Option RTree)) (args : List Formula),
      MatchesList cs args → Matches (.node r ix cs) (.or args)
  | always : ∀ (r : ℚ) (ix : Option Nat) (cs : List (Option RTree)) (a b : Int) (g : Formula),
      cs.length = (b + 1 - a).toNat → MatchesAll cs g →
      Matches (.node r ix cs) (.always a b g)
  | eventually : ∀ (r : ℚ) (ix : Option Nat) (cs : List (Option RTree)) (a b : Int) (g : Formula),
      cs.length = (b + 1 - a).toNat → MatchesAll cs g →
      Matches (.node r ix cs) (.eventually a b g)
  | next : ∀ (tr : RTree) (g : Formula), Matches tr g → Matches tr (.next g)

/-- An optional tree node matches a formula when absent or matching. -/
inductive MatchesO : Option RTree → Formula → Prop where
  | none : ∀ g : Formula, MatchesO none g
  | some : ∀ (c : RTree) (g : Formula), Matches c g → MatchesO (some c) g

/-- Pointwise shape agreement of a child list with an argument list. -/
inductive MatchesList : List (Option RTree) → List Formula → Prop where
  | nil : MatchesList [] []
  | cons : ∀ (c : Option RTree) (f : Formula) (cs : List (Option RTree)) (fs : List Formula),
      MatchesO c f → MatchesList cs fs → MatchesList (c :: cs) (f :: fs)

/-- Every child of the list matches the single window child. -/
inductive MatchesAll : List (Option RTree) → Formula → Prop where
  | nil : ∀ g : Formula, MatchesAll [] g
  | cons : ∀ (c : Option RTree) (g : Formula) (cs : List (Option RTree)),
      MatchesO c g → MatchesAll cs g → MatchesAll (c :: cs) g

end

/-- What `encodeArgs` needs from the tree to run without an `IndexError`
from position `i` on: either no tree, or a child entry (possibly `none`)
matching each remaining argument. -/
def ArgsOk : Option RTree → Nat → List Formula → Prop
  | none, _, _ => True
  | some _, _, [] => True
  | some tr, i, ff :: rest =>
    (∃ c, tr.children.get? i = some c ∧ MatchesO c ff) ∧ ArgsOk (some tr) (i + 1) rest

/-- What `encodeWindow` needs from the tree to run without an `IndexError`:
a matching child entry for each of the `k` remaining offsets from `j` on. -/
def WindowOk : Option RTree → Nat → Nat → Formula → Prop
  | none, _, _, _ => True
  | some _, _, 0, _ => True
  | some tr, j, k + 1, g =>
    (∃ c, tr.children.get? j = some c ∧ MatchesO c g) ∧ WindowOk (some tr) (j + 1) k g

/-- The inclusive integer range `[a, b]` of window offsets. -/
def intRange (a b : Int) : List Int :=
  (List.range (b + 1 - a).toNat).map (fun k : Nat => a + (k : Int))

/-- The window loop as the specification states it: one child encoding per
explicit offset `i` (element of `intRange a b`) at time `t + i`, with the
warm-start child at position `i - a`, collecting the non-`None` results in
order.  Compared with `encodeWindow` below (`window_spec`). -/
def specWindowCalls (m : Model) (label op : String) (g : Formula) (a : Int)
    (offs : List Int) (t : Int) (tree : Option RTree) :
    Except Err (List String × List (ℚ × ℚ) × Model) :=
  match offs with
  | [] => .ok ([], [], m)
  | i :: rest => do
    let tri ← childTree tree (i - a).toNat
    let rm ← add_stl_constr m (label ++ "_" ++ op ++ toString i) g (t + i) tri
    let xbm ← specWindowCalls rm.2 label op g a rest t tree
    match rm.1 with
    | some xb => .ok (xb.1 :: xbm.1, xb.2 :: xbm.2.1, xbm.2.2)
    | none => .ok (xbm.1, xbm.2.1, xbm.2.2)

/-- Concrete input: a leaf with declared bounds `[-5, 2]` and signal
constantly `0`. -/
def cexE1 : Formula := .expr (fun _ => some 0) (-5, 2)

/-- Concrete input: a leaf with declared bounds `[-1, 3]` and signal
constantly `0`. -/
def cexE2 : Formula := .expr (fun _ => some 0) (-1, 3)

/-- Concrete input: a `Not` over a leaf with declared bounds `[0, 1]` and
signal constantly `1` (a feasible signal: the value `1` lies inside the
declared leaf range). -/
def negF : Formula := .not (.expr (fun _ => some 1) (0, 1))

/-- The model built for `negF` with label `"spec"` at time `0`: the `spec`
variable is declared with the child's bounds `[0, 1]` unchanged, yet
constrained equal to `-spec_not` with `spec_not = 1`. -/
def negM : Model :=
  Model.mk
    [VarInfo.mk "spec_not" (some 0) (some 1) false none 0,
     VarInfo.mk "spec" (some 0) (some 1) false none 0]
    [Constr.eqSig "spec_not" 1, Constr.eqNeg "spec" "spec_not"]

/-- The model built when encoding `And(cexE1, cexE2)` at time `0` with label
`"s"` and no warm-start tree. -/
def andM2 : Model :=
  Model.mk
    [VarInfo.mk "s_and0" (some (-5)) (some 2) false none 0,
     VarInfo.mk "s_and1" (some (-1)) (some 3) false none 0,
     VarInfo.mk "s" none none false none 0,
     VarInfo.mk "s_ind0" (some 0) (some 1) true none 0,
     VarInfo.mk "s_ind1" (some 0) (some 1) true none 0]
    [Constr.eqSig "s_and0" 0, Constr.eqSig "s_and1" 0,
     Constr.extLe "s" "s_and0", Constr.bigMGe "s" "s_and0" "s_ind0" 3,
     Constr.extLe "s" "s_and1", Constr.bigMGe "s" "s_and1" "s_ind1" 3,
     Constr.selOne ["s_ind0", "s_ind1"]]

/-- The model built when encoding `Or(cexE1, cexE2)` at time `0` with label
`"s"` and no warm-start tree. -/
def orM2 : Model :=
  Model.mk
    [VarInfo.mk "s_or0" (some (-5)) (some 2) false none 0,
     VarInfo.mk "s_or1" (some (-1)) (some 3) false none 0,
     VarInfo.mk "s" none none false none 0,
     VarInfo.mk "s_ind0" (some 0) (some 1) true none 0,
     VarInfo.mk "s_ind1" (some 0) (some 1) true none 0]
    [Constr.eqSig "s_or0" 0, Constr.eqSig "s_or1" 0,
     Constr.extGe "s" "s_or0", Constr.bigMLe "s" "s_or0" "s_ind0" 3,
     Constr.extGe "s" "s_or1", Constr.bigMLe "s" "s_or1" "s_ind1" 3,
     Constr.selOne ["s_ind0", "s_ind1"]]

/-- Concrete input: a leaf whose signal is undefined everywhere. -/
def undefLeaf : Formula := .expr (fun _ => none) (0, 1)

/-- Concrete input: a leaf with declared bounds `[1, 4]` and signal
constantly `2`. -/
def defLeaf : Formula := .expr (fun _ => some 2) (1, 4)

/-- After the child loop over `[undefLeaf, defLeaf]` with label `"w"`:
only the defined child produced a variable. -/
def wArgsM : Model :=
  Model.mk [VarInfo.mk "w_and1" (some 1) (some 4) false none 0] [Constr.eqSig "w_and1" 2]

/-- A robustness tree with three `none` children, accompanying (wrongly)
a two-argument `And` node. -/
def fatTree : RTree := .node 0 none [none, none, none]

/-- The statement proved for every formula by `encode_sim` below (a named
definition so that the list- and window-level lemmas can take it as an
induction hypothesis): starting from any two models of equal shape, a run
of the encoder with any shape-matching warm-start tree (or none) and a run
with no tree both succeed, return the same pure result `bres f t label`,
build models that again have equal shape, leave their models untouched when
the node is undefined at `t`, and the treeless run only adds variables
whose start is unset. -/
def SimP (f : Formula) : Prop :=
  ∀ (m m' : Model) (label : String) (t : Int) (tr : Option RTree),
    m.shape = m'.shape → MatchesO tr f →
    ∃ m₁ m₂,
      add_stl_constr m label f t tr = .ok (bres f t label, m₁) ∧
      add_stl_constr m' label f t none = .ok (bres f t label, m₂) ∧
      m₁.shape = m₂.shape ∧
      (boundsOf f t = none → m₁ = m ∧ m₂ = m') ∧
      (∀ v ∈ m₂.vars, v ∈ m'.vars ∨ v.start = none)

/-! ## Unfolding and congruence lemmas -/

theorem add_expr_some {s : Int → Option ℚ} {t : Int} {v : ℚ} (m : Model) (label : String)
    (bd : ℚ × ℚ) (tree : Option RTree) (hs : s t = some v) :
    add_stl_constr m label (.expr s bd) t tree =
      .ok (some (label, bd.1, bd.2),
        Model.mk (m.vars ++ [VarInfo.mk label (some bd.1) (some bd.2) false (startOf tree) 0])
          (m.constrs ++ [.eqSig label v])) := by
  rw [add_stl_constr.eq_1, hs]

theorem add_expr_none {s : Int → Option ℚ} {t : Int} (m : Model) (label : String)
    (bd : ℚ × ℚ) (tree : Option RTree) (hs : s t = none) :
    add_stl_constr m label (.expr s bd) t tree = .ok (none, m) := by
  rw [add_stl_constr.eq_1, hs]

theorem shape_eq_iff (m m' : Model) :
    m.shape = m'.shape ↔
      m.vars.map VarInfo.shape = m'.vars.map VarInfo.shape ∧ m.constrs = m'.constrs := by
  simp [Model.shape]

theorem add_min_fst (m : Model) (label : String) (xx : List String) (K : ℚ) (b : Bool)
    (r : Option ℚ) (ix : Option Nat) : (add_min_constr m label xx K b r ix).1 = label := rfl

theorem add_max_fst (m : Model) (label : String) (xx : List String) (K : ℚ) (b : Bool)
    (r : Option ℚ) (ix : Option Nat) : (add_max_constr m label xx K b r ix).1 = label := rfl

theorem add_min_shape (m m' : Model) (label : String) (xx : List String) (K : ℚ) (b : Bool)
    (r r' : Option ℚ) (ix ix' : Option Nat) (h : m.shape = m'.shape) :
    ((add_min_constr m label xx K b r ix).2).shape
      = ((add_min_constr m' label xx K b r' ix').2).shape := by
  rw [shape_eq_iff] at h
  simp [add_min_constr, Model.shape, VarInfo.shape, h.1, h.2, List.map_map, Function.comp]

theorem add_max_shape (m m' : Model) (label : String) (xx : List String) (K : ℚ) (b : Bool)
    (r r' : Option ℚ) (ix ix' : Option Nat) (h : m.shape = m'.shape) :
    ((add_max_constr m label xx K b r ix).2).shape
      = ((add_max_constr m' label xx K b r' ix').2).shape := by
  rw [shape_eq_iff] at h
  simp [add_max_constr, Model.shape, VarInfo.shape, h.1, h.2, List.map_map, Function.comp]

theorem add_min_starts (m : Model) (label : String) (xx : List String) (K : ℚ) (b : Bool) :
    ∀ v ∈ ((add_min_constr m label xx K b none none).2).vars,
      v ∈ m.vars ∨ v.start = none := by
  intro v hv
  simp only [add_min_constr, List.mem_append, List.mem_cons, List.mem_map,
    List.mem_range] at hv
  rcases hv with hv | hv | ⟨i, _, hv⟩
  · exact .inl hv
  · exact .inr (by rw [hv])
  · exact .inr (by rw [← hv])

theorem add_max_starts (m : Model) (label : String) (xx : List String) (K : ℚ) (b : Bool) :
    ∀ v ∈ ((add_max_constr m label xx K b none none).2).vars,
      v ∈ m.vars ∨ v.start = none := by
  intro v hv
  simp only [add_max_constr, List.mem_append, List.mem_cons, List.mem_map,
    List.mem_range] at hv
  rcases hv with hv | hv | ⟨i, _, hv⟩
  · exact .inl hv
  · exact .inr (by rw [hv])
  · exact .inr (by rw [← hv])

theorem finishMinMax_nil (m : Model) (label : String) (useMin : Bool) (xx : List String)
    (tree : Option RTree) : finishMinMax m label useMin xx [] tree = (none, m) := by
  simp [finishMinMax, combineBounds]

theorem finishMinMax_cons (m : Model) (label : String) (useMin : Bool) (xx : List String)
    (b0 : ℚ × ℚ) (rest : List (ℚ × ℚ)) (tree : Option RTree) :
    finishMinMax m label useMin xx (b0 :: rest) tree =
      (some (label, (rest.map Prod.fst).foldl max b0.1, (rest.map Prod.snd).foldl max b0.2),
       ((if useMin then add_min_constr else add_max_constr) m label xx
         (max |(rest.map Prod.fst).foldl max b0.1| |(rest.map Prod.snd).foldl max b0.2|) false
         (startIxOf tree).1 (startIxOf tree).2).2) := by
  cases useMin <;> simp [finishMinMax, combineBounds, add_min_constr, add_max_constr]

theorem finishMinMax_sim (m m' : Model) (label : String) (useMin : Bool) (xx : List String)
    (boundss : List (ℚ × ℚ)) (tr : Option RTree) (h : m.shape = m'.shape) :
    (finishMinMax m label useMin xx boundss tr).1
        = (finishMinMax m' label useMin xx boundss none).1 ∧
      ((finishMinMax m label useMin xx boundss tr).2).shape
        = ((finishMinMax m' label useMin xx boundss none).2).shape ∧
      (boundss = [] → (finishMinMax m label useMin xx boundss tr).2 = m ∧
        (finishMinMax m' label useMin xx boundss none).2 = m') ∧
      (∀ v ∈ ((finishMinMax m' label useMin xx boundss none).2).vars,
        v ∈ m'.vars ∨ v.start = none) := by
  cases boundss with
  | nil =>
    rw [finishMinMax_nil, finishMinMax_nil]
    exact ⟨rfl, h, fun _ => ⟨rfl, rfl⟩, fun v hv => .inl hv⟩
  | cons b0 rest =>
    cases useMin
    · rw [finishMinMax_cons, finishMinMax_cons]
      simp only [Bool.false_eq_true, if_false]
      exact ⟨trivial, add_max_shape m m' label xx _ false _ _ _ _ h,
        fun hc => absurd hc (List.cons_ne_nil b0 rest),
        add_max_starts m' label xx _ false⟩
    · rw [finishMinMax_cons, finishMinMax_cons]
      simp only [if_true]
      exact ⟨trivial, add_min_shape m m' label xx _ false _ _ _ _ h,
        fun hc => absurd hc (List.cons_ne_nil b0 rest),
        add_min_starts m' label xx _ false⟩

theorem bres_eq_some {f : Formula} {t : Int} {bd : ℚ × ℚ} (label : String)
    (h : boundsOf f t = some bd) : bres f t label = some (label, bd.1, bd.2) := by
  simp [bres, h]

theorem bres_eq_none {f : Formula} {t : Int} (label : String)
    (h : boundsOf f t = none) : bres f t label = none := by
  simp [bres, h]

/-! ## The simulation lemma -/

theorem encodeArgs_sim (args : List Formula) (IH : ∀ ff ∈ args, SimP ff) :
    ∀ (i : Nat) (m m' : Model) (label op : String) (t : Int) (tr : Option RTree),
      m.shape = m'.shape → ArgsOk tr i args →
      ∃ xs m₁ m₂,
        encodeArgs m label op args t tr i = .ok (xs, collectBounds args t, m₁) ∧
        encodeArgs m' label op args t none i = .ok (xs, collectBounds args t, m₂) ∧
        m₁.shape = m₂.shape ∧
        (collectBounds args t = [] → m₁ = m ∧ m₂ = m') ∧
        (∀ v ∈ m₂.vars, v ∈ m'.vars ∨ v.start = none) := by
  induction args with
  | nil =>
    intro i m m' label op t tr hsh _
    exact ⟨[], m, m', by rw [encodeArgs.eq_1, collectBounds],
      by rw [encodeArgs.eq_1, collectBounds], hsh, fun _ => ⟨rfl, rfl⟩,
      fun v hv => .inl hv⟩
  | cons ff rest ihrest =>
    intro i m m' label op t tr hsh hok
    have hchild : ∃ c, childTree tr i = .ok c ∧ MatchesO c ff ∧ ArgsOk tr (i + 1) rest := by
      cases tr with
      | none => exact ⟨none, rfl, .none ff, by simp only [ArgsOk]⟩
      | some tnode =>
        simp only [ArgsOk] at hok
        obtain ⟨⟨c, hc, hm⟩, hrest⟩ := hok
        exact ⟨c, by simp only [childTree]; rw [hc], hm, hrest⟩
    obtain ⟨c, hct, hmo, hrest⟩ := hchild
    obtain ⟨ma, mb, hra, hrb, hshab, hnone, hst⟩ :=
      IH ff (List.mem_cons_self ff rest) m m' (label ++ "_" ++ op ++ toString i) t c hsh hmo
    obtain ⟨xs, m₁, m₂, hea, heb, hsh12, hnil, hst2⟩ :=
      ihrest (fun g hg => IH g (List.mem_cons_of_mem ff hg)) (i + 1) ma mb label op t tr
        hshab hrest
    have hstc : ∀ v ∈ m₂.vars, v ∈ m'.vars ∨ v.start = none := by
      intro v hv
      rcases hst2 v hv with h2 | h2
      · exact hst v h2
      · exact .inr h2
    have hctn : childTree (none : Option RTree) i = .ok none := rfl
    cases hbd : boundsOf ff t with
    | some bd =>
      refine ⟨(label ++ "_" ++ op ++ toString i) :: xs, m₁, m₂, ?_, ?_, hsh12, ?_, hstc⟩
      · simp only [encodeArgs.eq_2, hct, hra, hea, bres_eq_some _ hbd, collectBounds, hbd,
          bind, Except.bind]
      · simp only [encodeArgs.eq_2, hctn, hrb, heb, bres_eq_some _ hbd, collectBounds, hbd,
          bind, Except.bind]
      · intro hc
        rw [collectBounds, hbd] at hc
        exact absurd hc (List.cons_ne_nil _ _)
    | none =>
      have hcb : collectBounds (ff :: rest) t = collectBounds rest t := by
        rw [collectBounds, hbd]
      refine ⟨xs, m₁, m₂, ?_, ?_, hsh12, ?_, hstc⟩
      · simp only [encodeArgs.eq_2, hct, hra, hea, bres_eq_none _ hbd, hcb, bind, Except.bind]
      · simp only [encodeArgs.eq_2, hctn, hrb, heb, bres_eq_none _ hbd, hcb, bind, Except.bind]
      · intro hc
        rw [hcb] at hc
        obtain ⟨h1, h2⟩ := hnil hc
        obtain ⟨h3, h4⟩ := hnone hbd
        exact ⟨h1.trans h3, h2.trans h4⟩

theorem encodeWindow_sim (g : Formula) (IHg : SimP g) :
    ∀ (k j : Nat) (m m' : Model) (label op : String) (b1 t : Int) (tr : Option RTree),
      m.shape = m'.shape → WindowOk tr j k g →
      ∃ xs m₁ m₂,
        encodeWindow m label op g b1 t tr k j = .ok (xs, windowBounds g b1 t k j, m₁) ∧
        encodeWindow m' label op g b1 t none k j = .ok (xs, windowBounds g b1 t k j, m₂) ∧
        m₁.shape = m₂.shape ∧
        (windowBounds g b1 t k j = [] → m₁ = m ∧ m₂ = m') ∧
        (∀ v ∈ m₂.vars, v ∈ m'.vars ∨ v.start = none) := by
  intro k
  induction k with
  | zero =>
    intro j m m' label op b1 t tr hsh _
    exact ⟨[], m, m', by rw [encodeWindow.eq_1, windowBounds],
      by rw [encodeWindow.eq_1, windowBounds], hsh, fun _ => ⟨rfl, rfl⟩,
      fun v hv => .inl hv⟩
  | succ k' ihk =>
    intro j m m' label op b1 t tr hsh hok
    have hchild : ∃ c, childTree tr j = .ok c ∧ MatchesO c g ∧ WindowOk tr (j + 1) k' g := by
      cases tr with
      | none => exact ⟨none, rfl, .none g, by simp only [WindowOk]⟩
      | some tnode =>
        simp only [WindowOk] at hok
        obtain ⟨⟨c, hc, hm⟩, hrest⟩ := hok
        exact ⟨c, by simp only [childTree]; rw [hc], hm, hrest⟩
    obtain ⟨c, hct, hmo, hrest⟩ := hchild
    obtain ⟨ma, mb, hra, hrb, hshab, hnone, hst⟩ :=
      IHg m m' (label ++ "_" ++ op ++ toString (b1 + (j : Int))) (t + (b1 + (j : Int))) c
        hsh hmo
    obtain ⟨xs, m₁, m₂, hea, heb, hsh12, hnil, hst2⟩ :=
      ihk (j + 1) ma mb label op b1 t tr hshab hrest
    have hstc : ∀ v ∈ m₂.vars, v ∈ m'.vars ∨ v.start = none := by
      intro v hv
      rcases hst2 v hv with h2 | h2
      · exact hst v h2
      · exact .inr h2
    have hctn : childTree (none : Option RTree) j = .ok none := rfl
    cases hbd : boundsOf g (t + (b1 + (j : Int))) with
    | some bd =>
      refine ⟨(label ++ "_" ++ op ++ toString (b1 + (j : Int))) :: xs, m₁, m₂,
        ?_, ?_, hsh12, ?_, hstc⟩
      · simp only [encodeWindow.eq_2, hct, hra, hea, bres_eq_some _ hbd, windowBounds, hbd,
          bind, Except.bind]
      · simp only [encodeWindow.eq_2, hctn, hrb, heb, bres_eq_some _ hbd, windowBounds, hbd,
          bind, Except.bind]
      · intro hc
        rw [windowBounds, hbd] at hc
        exact absurd hc (List.cons_ne_nil _ _)
    | none =>
      have hcb : windowBounds g b1 t (k' + 1) j = windowBounds g b1 t k' (j + 1) := by
        rw [windowBounds, hbd]
      refine ⟨xs, m₁, m₂, ?_, ?_, hsh12, ?_, hstc⟩
      · simp only [encodeWindow.eq_2, hct, hra, hea, bres_eq_none _ hbd, hcb, bind, Except.bind]
      · simp only [encodeWindow.eq_2, hctn, hrb, heb, bres_eq_none _ hbd, hcb, bind, Except.bind]
      · intro hc
        rw [hcb] at hc
        obtain ⟨h1, h2⟩ := hnil hc
        obtain ⟨h3, h4⟩ := hnone hbd
        exact ⟨h1.trans h3, h2.trans h4⟩

theorem argsOk_of_drop (args : List Formula) :
    ∀ (r : ℚ) (ix : Option Nat) (cs : List (Option RTree)) (i : Nat),
      MatchesList (cs.drop i) args → ArgsOk (some (RTree.node r ix cs)) i args := by
  induction args with
  | nil => intro r ix cs i _; simp [ArgsOk]
  | cons ff rest ihrest =>
    intro r ix cs i hml
    cases hdrop : cs.drop i with
    | nil => rw [hdrop] at hml; cases hml
    | cons c cs2 =>
      rw [hdrop] at hml
      cases hml with
      | cons _ _ _ _ hm1 hml2 =>
        have hget : cs.get? i = some c := by
          have h0 : (cs.drop i).get? 0 = cs.get? (i + 0) := List.get?_drop cs i 0
          rw [hdrop] at h0
          simpa using h0.symm
        have hdrop2 : cs.drop (i + 1) = cs2 := by
          have h1 : List.drop 1 (List.drop i cs) = List.drop (i + 1) cs := List.drop_drop 1 i cs
          rw [hdrop] at h1
          simpa using h1.symm
        simp only [ArgsOk, RTree.children]
        exact ⟨⟨c, hget, hm1⟩, ihrest r ix cs (i + 1) (hdrop2 ▸ hml2)⟩

theorem matchesAll_mem (cs : List (Option RTree)) (g : Formula) (h : MatchesAll cs g) :
    ∀ c ∈ cs, MatchesO c g := by
  induction cs with
  | nil => intro c hc; cases hc
  | cons c0 cs0 ih =>
    cases h with
    | cons _ _ _ hm hall =>
      intro c' hc'
      rcases List.mem_cons.mp hc' with h1 | h1
      · rw [h1]; exact hm
      · exact ih hall c' h1

theorem windowOk_of (g : Formula) (r : ℚ) (ix : Option Nat) (cs : List (Option RTree))
    (hall : MatchesAll cs g) :
    ∀ (k j : Nat), j + k ≤ cs.length → WindowOk (some (RTree.node r ix cs)) j k g := by
  intro k
  induction k with
  | zero => intro j _; simp [WindowOk]
  | succ k' ihk =>
    intro j hjk
    have hj : j < cs.length := by omega
    have hget : cs.get? j = some (cs.get ⟨j, hj⟩) := List.get?_eq_get hj
    simp only [WindowOk]
    refine ⟨⟨cs.get ⟨j, hj⟩, by simp [RTree.children, hget], ?_⟩, ihk (j + 1) (by omega)⟩
    exact matchesAll_mem cs g hall _ (List.get?_mem hget)

theorem finishMinMax_fst (mx : Model) (label : String) (useMin : Bool) (xx : List String)
    (boundss : List (ℚ × ℚ)) (tree : Option RTree) :
    (finishMinMax mx label useMin xx boundss tree).1
      = (combineBounds boundss).map (fun bd => (label, bd.1, bd.2)) := by
  cases boundss with
  | nil => rw [finishMinMax_nil]; rfl
  | cons b0 rest => rw [finishMinMax_cons]; rfl

theorem combineBounds_eq_none (boundss : List (ℚ × ℚ)) :
    combineBounds boundss = none ↔ boundss = [] := by
  cases boundss <;> simp [combineBounds]

/-! ## The per-operator cases of the simulation -/

theorem sim_expr (s : Int → Option ℚ) (bd : ℚ × ℚ) : SimP (.expr s bd) := by
  intro m m' label t tr hsh _
  cases hs : s t with
  | some v =>
    have hb : boundsOf (.expr s bd) t = some bd := by simp [boundsOf, hs]
    refine ⟨Model.mk (m.vars ++ [VarInfo.mk label (some bd.1) (some bd.2) false (startOf tr) 0])
        (m.constrs ++ [.eqSig label v]),
      Model.mk (m'.vars ++ [VarInfo.mk label (some bd.1) (some bd.2) false none 0])
        (m'.constrs ++ [.eqSig label v]), ?_, ?_, ?_, ?_, ?_⟩
    · rw [add_expr_some m label bd tr hs, bres_eq_some label hb]
    · rw [add_expr_some m' label bd none hs, bres_eq_some label hb]
      rfl
    · rw [shape_eq_iff] at hsh ⊢
      constructor
      · simp [hsh.1, VarInfo.shape]
      · simp [hsh.2]
    · intro hc; rw [hb] at hc; cases hc
    · intro v hv
      rcases List.mem_append.mp hv with hv | hv
      · exact .inl hv
      · right
        have hv2 : v = VarInfo.mk label (some bd.1) (some bd.2) false none 0 := by
          simpa using hv
        rw [hv2]
  | none =>
    have hb : boundsOf (.expr s bd) t = none := by simp [boundsOf, hs]
    exact ⟨m, m', by rw [add_expr_none m label bd tr hs, bres_eq_none label hb],
      by rw [add_expr_none m' label bd none hs, bres_eq_none label hb],
      hsh, fun _ => ⟨rfl, rfl⟩, fun v hv => .inl hv⟩

theorem sim_not_not (gg : Formula) (IHgg : SimP gg) : SimP (.not (.not gg)) := by
  intro m m' label t tr hsh hmo
  have hchain : ∃ c1 c2, childTree tr 0 = .ok c1 ∧ childTree c1 0 = .ok c2 ∧
      MatchesO c2 gg := by
    cases hmo with
    | none => exact ⟨none, none, rfl, rfl, .none gg⟩
    | some tr0 _ hm =>
      cases hm with
      | not r ix c _ hm1 =>
        refine ⟨c, ?_⟩
        cases hm1 with
        | none => exact ⟨none, by simp [childTree, RTree.children], rfl, .none gg⟩
        | some c1 _ hm2 =>
          cases hm2 with
          | not r1 ix1 c2 _ hm3 =>
            exact ⟨c2, by simp [childTree, RTree.children],
              by simp [childTree, RTree.children], hm3⟩
  obtain ⟨c1, c2, h1, h2, hm2⟩ := hchain
  obtain ⟨m₁, m₂, ha, hb2, hsh12, hnone, hst⟩ := IHgg m m' label t c2 hsh hm2
  have hbr : bres (Formula.not (Formula.not gg)) t label = bres gg t label := by
    simp [bres, boundsOf]
  have hbn : boundsOf (Formula.not (Formula.not gg)) t = boundsOf gg t := by
    simp [boundsOf]
  refine ⟨m₁, m₂, ?_, ?_, hsh12, ?_, hst⟩
  · simp only [add_stl_constr.eq_2, h1, h2, bind, Except.bind, hbr]
    exact ha
  · simp only [add_stl_constr.eq_2, bind, Except.bind, hbr]
    simp only [show childTree (none : Option RTree) 0 = .ok none from rfl]
    exact hb2
  · intro hc
    rw [hbn] at hc
    exact hnone hc

theorem sim_not_single (g : Formula) (hg : ∀ gg : Formula, g = .not gg → False)
    (IHg : SimP g) : SimP (.not g) := by
  intro m m' label t tr hsh hmo
  have hchild : ∃ c, childTree tr 0 = .ok c ∧ MatchesO c g := by
    cases hmo with
    | none => exact ⟨none, rfl, .none g⟩
    | some tr0 _ hm =>
      cases hm with
      | not r ix c _ hm1 => exact ⟨c, by simp [childTree, RTree.children], hm1⟩
  obtain ⟨c, hct, hm1⟩ := hchild
  obtain ⟨ma, mb, ha, hb2, hshab, hnone, hst⟩ := IHg m m' (label ++ "_not") t c hsh hm1
  have hctn : childTree (none : Option RTree) 0 = .ok none := rfl
  cases hbd : boundsOf g t with
  | some bd =>
    have hb : boundsOf (Formula.not g) t = some bd := by simp [boundsOf, hbd]
    refine ⟨Model.mk (ma.vars ++ [VarInfo.mk label (some bd.1) (some bd.2) false (startOf tr) 0])
        (ma.constrs ++ [.eqNeg label (label ++ "_not")]),
      Model.mk (mb.vars ++ [VarInfo.mk label (some bd.1) (some bd.2) false none 0])
        (mb.constrs ++ [.eqNeg label (label ++ "_not")]), ?_, ?_, ?_, ?_, ?_⟩
    · rw [add_stl_constr.eq_3 m label t tr g hg]
      simp only [hct, ha, bres_eq_some _ hbd, bind, Except.bind]
      rw [bres_eq_some label hb]
    · rw [add_stl_constr.eq_3 m' label t none g hg]
      simp only [hctn, hb2, bres_eq_some _ hbd, bind, Except.bind]
      rw [bres_eq_some label hb]
      rfl
    · rw [shape_eq_iff] at hshab ⊢
      constructor
      · simp [hshab.1, VarInfo.shape]
      · simp [hshab.2]
    · intro hc; rw [hb] at hc; cases hc
    · intro v hv
      rcases List.mem_append.mp hv with hv | hv
      · rcases hst v hv with h2 | h2
        · exact .inl h2
        · exact .inr h2
      · right
        have hv2 : v = VarInfo.mk label (some bd.1) (some bd.2) false none 0 := by
          simpa using hv
        rw [hv2]
  | none =>
    have hb : boundsOf (Formula.not g) t = none := by simp [boundsOf, hbd]
    refine ⟨ma, mb, ?_, ?_, hshab, ?_, hst⟩
    · rw [add_stl_constr.eq_3 m label t tr g hg]
      simp only [hct, ha, bres_eq_none _ hbd, bind, Except.bind]
      rw [bres_eq_none label hb]
    · rw [add_stl_constr.eq_3 m' label t none g hg]
      simp only [hctn, hb2, bres_eq_none _ hbd, bind, Except.bind]
      rw [bres_eq_none label hb]
    · intro _; exact hnone hbd

theorem sim_and (args : List Formula) (IH : ∀ ff ∈ args, SimP ff) : SimP (.and args) := by
  intro m m' label t tr hsh hmo
  have hok : ArgsOk tr 0 args := by
    cases hmo with
    | none => cases args <;> simp [ArgsOk]
    | some tr0 _ hm =>
      cases hm with
      | and r ix cs _ hml => exact argsOk_of_drop args r ix cs 0 (by simpa using hml)
  obtain ⟨xs, m₁, m₂, hea, heb, hsh12, hnil, hst⟩ :=
    encodeArgs_sim args IH 0 m m' label "and" t tr hsh hok
  obtain ⟨hffst, hfsh, hfnil, hfst2⟩ :=
    finishMinMax_sim m₁ m₂ label true xs (collectBounds args t) tr hsh12
  have hbnd : boundsOf (Formula.and args) t = combineBounds (collectBounds args t) := by
    simp [boundsOf]
  refine ⟨(finishMinMax m₁ label true xs (collectBounds args t) tr).2,
    (finishMinMax m₂ label true xs (collectBounds args t) none).2, ?_, ?_, hfsh, ?_, ?_⟩
  · simp only [add_stl_constr.eq_4, hea, bind, Except.bind]
    have h1 : bres (Formula.and args) t label
        = (finishMinMax m₁ label true xs (collectBounds args t) tr).1 := by
      rw [finishMinMax_fst]
      simp only [bres, hbnd]
    rw [h1, Prod.mk.eta]
  · simp only [add_stl_constr.eq_4, heb, bind, Except.bind]
    have h1 : bres (Formula.and args) t label
        = (finishMinMax m₂ label true xs (collectBounds args t) none).1 := by
      rw [finishMinMax_fst]
      simp only [bres, hbnd]
    rw [h1, Prod.mk.eta]
  · intro hc
    rw [hbnd] at hc
    have hcl : collectBounds args t = [] := (combineBounds_eq_none _).mp hc
    obtain ⟨h3, h4⟩ := hfnil hcl
    obtain ⟨h1, h2⟩ := hnil hcl
    exact ⟨h3.trans h1, h4.trans h2⟩
  · intro v hv
    rcases hfst2 v hv with h1 | h1
    · rcases hst v h1 with h2 | h2
      · exact .inl h2
      · exact .inr h2
    · exact .inr h1

theorem sim_or (args : List Formula) (IH : ∀ ff ∈ args, SimP ff) : SimP (.or args) := by
  intro m m' label t tr hsh hmo
  have hok : ArgsOk tr 0 args := by
    cases hmo with
    | none => cases args <;> simp [ArgsOk]
    | some tr0 _ hm =>
      cases hm with
      | or r ix cs _ hml => exact argsOk_of_drop args r ix cs 0 (by simpa using hml)
  obtain ⟨xs, m₁, m₂, hea, heb, hsh12, hnil, hst⟩ :=
    encodeArgs_sim args IH 0 m m' label "or" t tr hsh hok
  obtain ⟨hffst, hfsh, hfnil, hfst2⟩ :=
    finishMinMax_sim m₁ m₂ label false xs (collectBounds args t) tr hsh12
  have hbnd : boundsOf (Formula.or args) t = combineBounds (collectBounds args t) := by
    simp [boundsOf]
  refine ⟨(finishMinMax m₁ label false xs (collectBounds args t) tr).2,
    (finishMinMax m₂ label false xs (collectBounds args t) none).2, ?_, ?_, hfsh, ?_, ?_⟩
  · simp only [add_stl_constr.eq_5, hea, bind, Except.bind]
    have h1 : bres (Formula.or args) t label
        = (finishMinMax m₁ label false xs (collectBounds args t) tr).1 := by
      rw [finishMinMax_fst]
      simp only [bres, hbnd]
    rw [h1, Prod.mk.eta]
  · simp only [add_stl_constr.eq_5, heb, bind, Except.bind]
    have h1 : bres (Formula.or args) t label
        = (finishMinMax m₂ label false xs (collectBounds args t) none).1 := by
      rw [finishMinMax_fst]
      simp only [bres, hbnd]
    rw [h1, Prod.mk.eta]
  · intro hc
    rw [hbnd] at hc
    have hcl : collectBounds args t = [] := (combineBounds_eq_none _).mp hc
    obtain ⟨h3, h4⟩ := hfnil hcl
    obtain ⟨h1, h2⟩ := hnil hcl
    exact ⟨h3.trans h1, h4.trans h2⟩
  · intro v hv
    rcases hfst2 v hv with h1 | h1
    · rcases hst v h1 with h2 | h2
      · exact .inl h2
      · exact .inr h2
    · exact .inr h1

theorem sim_always (a b : Int) (g : Formula) (IHg : SimP g) : SimP (.always a b g) := by
  intro m m' label t tr hsh hmo
  have hok : WindowOk tr 0 ((b + 1 - a).toNat) g := by
    cases hmo with
    | none => cases (b + 1 - a).toNat <;> simp [WindowOk]
    | some tr0 _ hm =>
      cases hm with
      | always r ix cs _ _ _ hlen hall =>
        exact windowOk_of g r ix cs hall _ 0 (by omega)
  obtain ⟨xs, m₁, m₂, hea, heb, hsh12, hnil, hst⟩ :=
    encodeWindow_sim g IHg ((b + 1 - a).toNat) 0 m m' label "alw" a t tr hsh hok
  obtain ⟨hffst, hfsh, hfnil, hfst2⟩ :=
    finishMinMax_sim m₁ m₂ label true xs (windowBounds g a t ((b + 1 - a).toNat) 0) tr hsh12
  have hbnd : boundsOf (Formula.always a b g) t
      = combineBounds (windowBounds g a t ((b + 1 - a).toNat) 0) := by
    simp [boundsOf]
  refine ⟨(finishMinMax m₁ label true xs (windowBounds g a t ((b + 1 - a).toNat) 0) tr).2,
    (finishMinMax m₂ label true xs (windowBounds g a t ((b + 1 - a).toNat) 0) none).2,
    ?_, ?_, hfsh, ?_, ?_⟩
  · simp only [add_stl_constr.eq_6, hea, bind, Except.bind]
    have h1 : bres (Formula.always a b g) t label
        = (finishMinMax m₁ label true xs (windowBounds g a t ((b + 1 - a).toNat) 0) tr).1 := by
      rw [finishMinMax_fst]
      simp only [bres, hbnd]
    rw [h1, Prod.mk.eta]
  · simp only [add_stl_constr.eq_6, heb, bind, Except.bind]
    have h1 : bres (Formula.always a b g) t label
        = (finishMinMax m₂ label true xs (windowBounds g a t ((b + 1 - a).toNat) 0) none).1 := by
      rw [finishMinMax_fst]
      simp only [bres, hbnd]
    rw [h1, Prod.mk.eta]
  · intro hc
    rw [hbnd] at hc
    have hcl : windowBounds g a t ((b + 1 - a).toNat) 0 = [] := (combineBounds_eq_none _).mp hc
    obtain ⟨h3, h4⟩ := hfnil hcl
    obtain ⟨h1, h2⟩ := hnil hcl
    exact ⟨h3.trans h1, h4.trans h2⟩
  · intro v hv
    rcases hfst2 v hv with h1 | h1
    · rcases hst v h1 with h2 | h2
      · exact .inl h2
      · exact .inr h2
    · exact .inr h1

theorem sim_eventually (a b : Int) (g : Formula) (IHg : SimP g) : SimP (.eventually a b g) := by
  intro m m' label t tr hsh hmo
  have hok : WindowOk tr 0 ((b + 1 - a).toNat) g := by
    cases hmo with
    | none => cases (b + 1 - a).toNat <;> simp [WindowOk]
    | some tr0 _ hm =>
      cases hm with
      | eventually r ix cs _ _ _ hlen hall =>
        exact windowOk_of g r ix cs hall _ 0 (by omega)
  obtain ⟨xs, m₁, m₂, hea, heb, hsh12, hnil, hst⟩ :=
    encodeWindow_sim g IHg ((b + 1 - a).toNat) 0 m m' label "eve" a t tr hsh hok
  obtain ⟨hffst, hfsh, hfnil, hfst2⟩ :=
    finishMinMax_sim m₁ m₂ label false xs (windowBounds g a t ((b + 1 - a).toNat) 0) tr hsh12
  have hbnd : boundsOf (Formula.eventually a b g) t
      = combineBounds (windowBounds g a t ((b + 1 - a).toNat) 0) := by
    simp [boundsOf]
  refine ⟨(finishMinMax m₁ label false xs (windowBounds g a t ((b + 1 - a).toNat) 0) tr).2,
    (finishMinMax m₂ label false xs (windowBounds g a t ((b + 1 - a).toNat) 0) none).2,
    ?_, ?_, hfsh, ?_, ?_⟩
  · simp only [add_stl_constr.eq_7, hea, bind, Except.bind]
    have h1 : bres (Formula.eventually a b g) t label
        = (finishMinMax m₁ label false xs (windowBounds g a t ((b + 1 - a).toNat) 0) tr).1 := by
      rw [finishMinMax_fst]
      simp only [bres, hbnd]
    rw [h1, Prod.mk.eta]
  · simp only [add_stl_constr.eq_7, heb, bind, Except.bind]
    have h1 : bres (Formula.eventually a b g) t label
        = (finishMinMax m₂ label false xs (windowBounds g a t ((b + 1 - a).toNat) 0) none).1 := by
      rw [finishMinMax_fst]
      simp only [bres, hbnd]
    rw [h1, Prod.mk.eta]
  · intro hc
    rw [hbnd] at hc
    have hcl : windowBounds g a t ((b + 1 - a).toNat) 0 = [] := (combineBounds_eq_none _).mp hc
    obtain ⟨h3, h4⟩ := hfnil hcl
    obtain ⟨h1, h2⟩ := hnil hcl
    exact ⟨h3.trans h1, h4.trans h2⟩
  · intro v hv
    rcases hfst2 v hv with h1 | h1
    · rcases hst v h1 with h2 | h2
      · exact .inl h2
      · exact .inr h2
    · exact .inr h1

theorem sim_next (g : Formula) (IHg : SimP g) : SimP (.next g) := by
  intro m m' label t tr hsh hmo
  have hm1 : MatchesO tr g := by
    cases hmo with
    | none => exact .none g
    | some tr0 _ hm =>
      cases hm with
      | next _ _ h => exact .some tr0 g h
  obtain ⟨m₁, m₂, ha, hb2, h12, hnone, hst⟩ := IHg m m' label (t + 1) tr hsh hm1
  have hbr : bres (Formula.next g) t label = bres g (t + 1) label := by simp [bres, boundsOf]
  have hbn : boundsOf (Formula.next g) t = boundsOf g (t + 1) := by simp [boundsOf]
  refine ⟨m₁, m₂, ?_, ?_, h12, ?_, hst⟩
  · rw [add_stl_constr.eq_8, hbr]; exact ha
  · rw [add_stl_constr.eq_8, hbr]; exact hb2
  · intro hc; rw [hbn] at hc; exact hnone hc

/-- The simulation lemma: every formula satisfies `SimP` — the encoder
succeeds both with a shape-matching tree and without one, returns the pure
result `bres`, and the warm-start tree influences the built model only
through start attributes. -/
theorem encode_sim : ∀ f : Formula, SimP f := by
  have main : ∀ (n : Nat) (f : Formula), sizeOf f ≤ n → SimP f := by
    intro n
    induction n with
    | zero =>
      intro f hf
      exfalso
      cases f <;> simp_arith at hf
    | succ n ihn =>
      intro f hf
      cases f with
      | expr s bd => exact sim_expr s bd
      | not g =>
        have hgs : sizeOf g ≤ n := by
          have h1 : sizeOf (Formula.not g) = 1 + sizeOf g := by simp_arith
          omega
        cases g with
        | not gg =>
          have hggs : sizeOf gg ≤ n := by
            have h1 : sizeOf (Formula.not gg) = 1 + sizeOf gg := by simp_arith
            omega
          exact sim_not_not gg (ihn gg hggs)
        | expr s bd => exact sim_not_single _ (fun _ h => Formula.noConfusion h) (ihn _ hgs)
        | and args2 => exact sim_not_single _ (fun _ h => Formula.noConfusion h) (ihn _ hgs)
        | or args2 => exact sim_not_single _ (fun _ h => Formula.noConfusion h) (ihn _ hgs)
        | always a2 b2 g2 =>
          exact sim_not_single _ (fun _ h => Formula.noConfusion h) (ihn _ hgs)
        | eventually a2 b2 g2 =>
          exact sim_not_single _ (fun _ h => Formula.noConfusion h) (ihn _ hgs)
        | next g2 => exact sim_not_single _ (fun _ h => Formula.noConfusion h) (ihn _ hgs)
      | and args =>
        refine sim_and args (fun ff hff => ihn ff ?_)
        have h1 : sizeOf ff < sizeOf args := List.sizeOf_lt_of_mem hff
        have h2 : sizeOf (Formula.and args) = 1 + sizeOf args := by simp_arith
        omega
      | or args =>
        refine sim_or args (fun ff hff => ihn ff ?_)
        have h1 : sizeOf ff < sizeOf args := List.sizeOf_lt_of_mem hff
        have h2 : sizeOf (Formula.or args) = 1 + sizeOf args := by simp_arith
        omega
      | always a b g =>
        refine sim_always a b g (ihn g ?_)
        have h2 : sizeOf g < sizeOf (Formula.always a b g) := by simp_arith
        omega
      | eventually a b g =>
        refine sim_eventually a b g (ihn g ?_)
        have h2 : sizeOf g < sizeOf (Formula.eventually a b g) := by simp_arith
        omega
      | next g =>
        refine sim_next g (ihn g ?_)
        have h2 : sizeOf g < sizeOf (Formula.next g) := by simp_arith
        omega
  exact fun f => main (sizeOf f) f le_rfl

/-! ## Auxiliary facts for the claims -/

theorem le_foldl_max (l : List ℚ) :
    ∀ b : ℚ, b ≤ l.foldl max b ∧ ∀ x ∈ l, x ≤ l.foldl max b := by
  induction l with
  | nil => intro b; exact ⟨le_rfl, fun x hx => absurd hx (List.not_mem_nil x)⟩
  | cons y ys ih =>
    intro b
    obtain ⟨h1, h2⟩ := ih (max b y)
    rw [List.foldl_cons]
    refine ⟨le_trans (le_max_left b y) h1, ?_⟩
    intro x hx
    rcases List.mem_cons.mp hx with h | h
    · rw [h]
      exact le_trans (le_max_right b y) h1
    · exact h2 x h

theorem foldl_max_mem (l : List ℚ) : ∀ b : ℚ, l.foldl max b ∈ b :: l := by
  induction l with
  | nil => intro b; simp
  | cons y ys ih =>
    intro b
    rw [List.foldl_cons]
    rcases List.mem_cons.mp (ih (max b y)) with h | h
    · rw [h]
      rcases max_choice b y with h2 | h2 <;> rw [h2] <;> simp
    · exact List.mem_cons_of_mem b (List.mem_cons_of_mem y h)

theorem collectBounds_eq_nil (t : Int) (args : List Formula)
    (h : ∀ ff ∈ args, boundsOf ff t = none) : collectBounds args t = [] := by
  induction args with
  | nil => rw [collectBounds]
  | cons ff rest ih =>
    rw [collectBounds, h ff (List.mem_cons_self ff rest)]
    exact ih (fun g hg => h g (List.mem_cons_of_mem ff hg))

theorem windowBounds_eq_nil (g : Formula) (b1 t : Int) :
    ∀ (k j : Nat), (∀ u : Nat, u < k → boundsOf g (t + (b1 + ((j + u : Nat) : Int))) = none) →
      windowBounds g b1 t k j = [] := by
  intro k
  induction k with
  | zero => intro j _; rw [windowBounds]
  | succ k' ih =>
    intro j h
    rw [windowBounds]
    have h0 : boundsOf g (t + (b1 + (j : Int))) = none := by
      have := h 0 (Nat.succ_pos k')
      simpa using this
    rw [h0]
    refine ih (j + 1) ?_
    intro u hu
    have := h (u + 1) (by omega)
    have harg : ((j + (u + 1) : Nat) : Int) = (((j + 1) + u : Nat) : Int) := by
      push_cast
      ring
    rw [harg] at this
    exact this

theorem encodeArgs_short (args : List Formula) :
    ∀ (i : Nat) (m : Model) (label op : String) (t : Int) (tnode : RTree),
      tnode.children.length < i + args.length → args ≠ [] →
      ∃ e, encodeArgs m label op args t (some tnode) i = .error e := by
  induction args with
  | nil => intro i m label op t tnode _ hne; exact absurd rfl hne
  | cons ff rest ihrest =>
    intro i m label op t tnode hlen _
    rcases Nat.lt_or_ge i tnode.children.length with hi | hi
    · obtain ⟨c, hc⟩ : ∃ c, tnode.children.get? i = some c :=
        ⟨_, List.get?_eq_get hi⟩
      have hct : childTree (some tnode) i = .ok c := by
        simp only [childTree]
        rw [hc]
      cases hadd : add_stl_constr m (label ++ "_" ++ op ++ toString i) ff t c with
      | error e =>
        exact ⟨e, by rw [encodeArgs.eq_2]; simp only [hct, hadd, bind, Except.bind]⟩
      | ok rm =>
        have hrest : rest ≠ [] := by
          intro hre
          rw [hre] at hlen
          simp only [List.length_cons, List.length_nil] at hlen
          omega
        have hlen2 : tnode.children.length < (i + 1) + rest.length := by
          simp only [List.length_cons] at hlen
          omega
        obtain ⟨e, he⟩ := ihrest (i + 1) rm.2 label op t tnode hlen2 hrest
        exact ⟨e, by rw [encodeArgs.eq_2]; simp only [hct, hadd, he, bind, Except.bind]⟩
    · have hc : tnode.children.get? i = none := List.get?_eq_none.mpr hi
      have hct : childTree (some tnode) i = .error .indexError := by
        simp only [childTree]
        rw [hc]
      exact ⟨.indexError, by rw [encodeArgs.eq_2]; simp only [hct, bind, Except.bind]⟩

theorem encodeWindow_short (g : Formula) :
    ∀ (k j : Nat) (m : Model) (label op : String) (b1 t : Int) (tnode : RTree),
      tnode.children.length < j + k → k ≠ 0 →
      ∃ e, encodeWindow m label op g b1 t (some tnode) k j = .error e := by
  intro k
  induction k with
  | zero => intro j m label op b1 t tnode _ hne; exact absurd rfl hne
  | succ k' ihk =>
    intro j m label op b1 t tnode hlen _
    rcases Nat.lt_or_ge j tnode.children.length with hj | hj
    · obtain ⟨c, hc⟩ : ∃ c, tnode.children.get? j = some c :=
        ⟨_, List.get?_eq_get hj⟩
      have hct : childTree (some tnode) j = .ok c := by
        simp only [childTree]
        rw [hc]
      cases hadd : add_stl_constr m (label ++ "_" ++ op ++ toString (b1 + (j : Int))) g
          (t + (b1 + (j : Int))) c with
      | error e =>
        exact ⟨e, by rw [encodeWindow.eq_2]; simp only [hct, hadd, bind, Except.bind]⟩
      | ok rm =>
        have hk : k' ≠ 0 := by omega
        obtain ⟨e, he⟩ := ihk (j + 1) rm.2 label op b1 t tnode (by omega) hk
        exact ⟨e, by rw [encodeWindow.eq_2]; simp only [hct, hadd, he, bind, Except.bind]⟩
    · have hc : tnode.children.get? j = none := List.get?_eq_none.mpr hj
      have hct : childTree (some tnode) j = .error .indexError := by
        simp only [childTree]
        rw [hc]
      exact ⟨.indexError, by rw [encodeWindow.eq_2]; simp only [hct, bind, Except.bind]⟩

theorem window_spec (g : Formula) (label op : String) :
    ∀ (k j : Nat) (m : Model) (b1 t : Int) (tree : Option RTree),
      encodeWindow m label op g b1 t tree k j
        = specWindowCalls m label op g b1
            ((List.range k).map (fun u => b1 + ((j + u : Nat) : Int))) t tree := by
  intro k
  induction k with
  | zero =>
    intro j m b1 t tree
    rw [encodeWindow.eq_1]
    simp [specWindowCalls]
  | succ k ihk =>
    intro j m b1 t tree
    have hfun : (fun u : Nat => b1 + ((j + Nat.succ u : Nat) : Int))
        = (fun u : Nat => b1 + (((j + 1) + u : Nat) : Int)) := by
      funext u
      push_cast
      ring
    have hlist : (List.range (k + 1)).map (fun u => b1 + ((j + u : Nat) : Int))
        = (b1 + (j : Int)) ::
            (List.range k).map (fun u => b1 + (((j + 1) + u : Nat) : Int)) := by
      rw [List.range_succ_eq_map, List.map_cons, List.map_map]
      refine congrArg₂ List.cons (by simp) ?_
      rw [show ((fun u : Nat => b1 + ((j + u : Nat) : Int)) ∘ Nat.succ)
          = (fun u : Nat => b1 + ((j + Nat.succ u : Nat) : Int)) from rfl, hfun]
    rw [encodeWindow.eq_2, hlist]
    simp only [specWindowCalls]
    have ht : ((b1 + (j : Int)) - b1).toNat = j := by omega
    rw [ht]
    simp only [ihk]

theorem encode_none_result (f : Formula) (m : Model) (label : String) (t : Int)
    (hb : boundsOf f t = none) :
    add_stl_constr m label f t none = .ok (none, m) := by
  obtain ⟨m₁, _, ha, _, _, hnone, _⟩ := encode_sim f m m label t none rfl (.none f)
  obtain ⟨h1, _⟩ := hnone hb
  rw [bres_eq_none label hb, h1] at ha
  exact ha

theorem and_finish (m m₁ : Model) (label : String) (t : Int) (args : List Formula)
    (xx : List String) (b0 : ℚ × ℚ) (rest : List (ℚ × ℚ))
    (h : encodeArgs m label "and" args t none 0 = .ok (xx, b0 :: rest, m₁)) :
    add_stl_constr m label (.and args) t none
      = .ok (some (label, (rest.map Prod.fst).foldl max b0.1,
            (rest.map Prod.snd).foldl max b0.2),
          (add_min_constr m₁ label xx
            (max |(rest.map Prod.fst).foldl max b0.1|
              |(rest.map Prod.snd).foldl max b0.2|) false none none).2) := by
  rw [add_stl_constr.eq_4]
  simp only [h, bind, Except.bind]
  rw [finishMinMax_cons]
  rfl

theorem or_finish (m m₁ : Model) (label : String) (t : Int) (args : List Formula)
    (xx : List String) (b0 : ℚ × ℚ) (rest : List (ℚ × ℚ))
    (h : encodeArgs m label "or" args t none 0 = .ok (xx, b0 :: rest, m₁)) :
    add_stl_constr m label (.or args) t none
      = .ok (some (label, (rest.map Prod.fst).foldl max b0.1,
            (rest.map Prod.snd).foldl max b0.2),
          (add_max_constr m₁ label xx
            (max |(rest.map Prod.fst).foldl max b0.1|
              |(rest.map Prod.snd).foldl max b0.2|) false none none).2) := by
  rw [add_stl_constr.eq_5]
  simp only [h, bind, Except.bind]
  rw [finishMinMax_cons]
  rfl

theorem alw_finish (m m₁ : Model) (label : String) (t : Int) (a b : Int) (g : Formula)
    (xx : List String) (b0 : ℚ × ℚ) (rest : List (ℚ × ℚ))
    (h : encodeWindow m label "alw" g a t none ((b + 1 - a).toNat) 0
      = .ok (xx, b0 :: rest, m₁)) :
    add_stl_constr m label (.always a b g) t none
      = .ok (some (label, (rest.map Prod.fst).foldl max b0.1,
            (rest.map Prod.snd).foldl max b0.2),
          (add_min_constr m₁ label xx
            (max |(rest.map Prod.fst).foldl max b0.1|
              |(rest.map Prod.snd).foldl max b0.2|) false none none).2) := by
  rw [add_stl_constr.eq_6]
  simp only [h, bind, Except.bind]
  rw [finishMinMax_cons]
  rfl

theorem eve_finish (m m₁ : Model) (label : String) (t : Int) (a b : Int) (g : Formula)
    (xx : List String) (b0 : ℚ × ℚ) (rest : List (ℚ × ℚ))
    (h : encodeWindow m label "eve" g a t none ((b + 1 - a).toNat) 0
      = .ok (xx, b0 :: rest, m₁)) :
    add_stl_constr m label (.eventually a b g) t none
      = .ok (some (label, (rest.map Prod.fst).foldl max b0.1,
            (rest.map Prod.snd).foldl max b0.2),
          (add_max_constr m₁ label xx
            (max |(rest.map Prod.fst).foldl max b0.1|
              |(rest.map Prod.snd).foldl max b0.2|) false none none).2) := by
  rw [add_stl_constr.eq_7]
  simp only [h, bind, Except.bind]
  rw [finishMinMax_cons]
  rfl

/-! ## The claims -/

/-- C1 (amended: the source combines the SIGNED bounds element-wise —
`bounds = map(max, zip(*boundss))` — not the absolute values; see
`bounds_absmax_cex`): for an `And`/`Or` node, and for an
`Always`/`Eventually` node, with at least one successfully encoded child,
the bounds pair `(lo, hi)` returned by the encoder is the element-wise
maximum of the collected children's signed bounds — `lo` (resp. `hi`)
dominates every collected lower (resp. upper) bound and is itself one of
them — and the big-M constant `K` passed to the min/max encoder is
`max |lo| |hi|` of that combined pair. -/
theorem bounds_combination_signed_max (m m₁ : Model) (label : String) (t : Int)
    (args : List Formula) (a b : Int) (g : Formula)
    (xx : List String) (b0 : ℚ × ℚ) (rest : List (ℚ × ℚ)) :
    (encodeArgs m label "and" args t none 0 = .ok (xx, b0 :: rest, m₁) →
      add_stl_constr m label (.and args) t none
        = .ok (some (label, (rest.map Prod.fst).foldl max b0.1,
              (rest.map Prod.snd).foldl max b0.2),
            (add_min_constr m₁ label xx
              (max |(rest.map Prod.fst).foldl max b0.1|
                |(rest.map Prod.snd).foldl max b0.2|) false none none).2)) ∧
    (encodeArgs m label "or" args t none 0 = .ok (xx, b0 :: rest, m₁) →
      add_stl_constr m label (.or args) t none
        = .ok (some (label, (rest.map Prod.fst).foldl max b0.1,
              (rest.map Prod.snd).foldl max b0.2),
            (add_max_constr m₁ label xx
              (max |(rest.map Prod.fst).foldl max b0.1|
                |(rest.map Prod.snd).foldl max b0.2|) false none none).2)) ∧
    (encodeWindow m label "alw" g a t none ((b + 1 - a).toNat) 0 = .ok (xx, b0 :: rest, m₁) →
      add_stl_constr m label (.always a b g) t none
        = .ok (some (label, (rest.map Prod.fst).foldl max b0.1,
              (rest.map Prod.snd).foldl max b0.2),
            (add_min_constr m₁ label xx
              (max |(rest.map Prod.fst).foldl max b0.1|
                |(rest.map Prod.snd).foldl max b0.2|) false none none).2)) ∧
    (encodeWindow m label "eve" g a t none ((b + 1 - a).toNat) 0 = .ok (xx, b0 :: rest, m₁) →
      add_stl_constr m label (.eventually a b g) t none
        = .ok (some (label, (rest.map Prod.fst).foldl max b0.1,
              (rest.map Prod.snd).foldl max b0.2),
            (add_max_constr m₁ label xx
              (max |(rest.map Prod.fst).foldl max b0.1|
                |(rest.map Prod.snd).foldl max b0.2|) false none none).2)) ∧
    (∀ p ∈ b0 :: rest, p.1 ≤ (rest.map Prod.fst).foldl max b0.1 ∧
      p.2 ≤ (rest.map Prod.snd).foldl max b0.2) ∧
    ((rest.map Prod.fst).foldl max b0.1 ∈ (b0 :: rest).map Prod.fst) ∧
    ((rest.map Prod.snd).foldl max b0.2 ∈ (b0 :: rest).map Prod.snd) := by
  refine ⟨and_finish m m₁ label t args xx b0 rest,
    or_finish m m₁ label t args xx b0 rest,
    alw_finish m m₁ label t a b g xx b0 rest,
    eve_finish m m₁ label t a b g xx b0 rest, ?_, ?_, ?_⟩
  · intro p hp
    rcases List.mem_cons.mp hp with h | h
    · rw [h]
      exact ⟨(le_foldl_max (rest.map Prod.fst) b0.1).1,
        (le_foldl_max (rest.map Prod.snd) b0.2).1⟩
    · exact ⟨(le_foldl_max (rest.map Prod.fst) b0.1).2 p.1 (List.mem_map_of_mem _ h),
        (le_foldl_max (rest.map Prod.snd) b0.2).2 p.2 (List.mem_map_of_mem _ h)⟩
  · rw [List.map_cons]
    exact foldl_max_mem (rest.map Prod.fst) b0.1
  · rw [List.map_cons]
    exact foldl_max_mem (rest.map Prod.snd) b0.2

/-- C1 counterexample: for `And(cexE1, cexE2)` with children's bounds
`(-5, 2)` and `(-1, 3)`, the encoder returns the bounds pair `(-1, 3)` and
passes `K = 3` to the min encoder (see `andM2`), whereas the element-wise
maximum of absolute values of the children's bounds is `(5, 3) ≠ (-1, 3)`
(which would demand `K = 5`). -/
theorem bounds_absmax_cex :
    add_stl_constr Model.empty "s" (.and [cexE1, cexE2]) 0 none
      = .ok (some ("s", -1, 3), andM2) ∧
    (max |(-5 : ℚ)| |(-1 : ℚ)|, max |(2 : ℚ)| |(3 : ℚ)|) = ((5 : ℚ), (3 : ℚ)) ∧
    ((-1 : ℚ), (3 : ℚ)) ≠ ((5 : ℚ), (3 : ℚ)) := by
  refine ⟨?_, by norm_num, by norm_num⟩
  simp [add_stl_constr, encodeArgs, childTree, finishMinMax, combineBounds, add_min_constr,
    Model.empty, cexE1, cexE2, andM2, bind, Except.bind, pure, Except.pure, List.enum,
    List.enumFrom, List.range, List.range.loop, startIxOf]
  norm_num
  decide

/-- C1 witness: the combining equations hold at a concrete input; here for a
one-argument `And` (the child loop yields variable `w_and0` with bounds
`(1, 4)`). -/
theorem bounds_combination_signed_max_witness :
    encodeArgs Model.empty "w" "and" [defLeaf] 0 none 0
      = .ok (["w_and0"],
          [((1 : ℚ), (4 : ℚ))],
          Model.mk [VarInfo.mk "w_and0" (some 1) (some 4) false none 0]
            [Constr.eqSig "w_and0" 2]) ∧
    add_stl_constr Model.empty "w" (.and [defLeaf]) 0 none
      = .ok (some ("w", 1, 4),
          (add_min_constr
            (Model.mk [VarInfo.mk "w_and0" (some 1) (some 4) false none 0]
              [Constr.eqSig "w_and0" 2])
            "w" ["w_and0"] (max |(1 : ℚ)| |(4 : ℚ)|) false none none).2) := by
  have hargs : encodeArgs Model.empty "w" "and" [defLeaf] 0 none 0
      = .ok (["w_and0"],
          [((1 : ℚ), (4 : ℚ))],
          Model.mk [VarInfo.mk "w_and0" (some 1) (some 4) false none 0]
            [Constr.eqSig "w_and0" 2]) := by
    simp [encodeArgs, add_stl_constr, childTree, defLeaf, Model.empty, bind, Except.bind,
      pure, Except.pure, startOf]
    decide
  exact ⟨hargs,
    (bounds_combination_signed_max Model.empty _ "w" 0 [defLeaf] 0 0 defLeaf
      ["w_and0"] ((1 : ℚ), (4 : ℚ)) []).1 hargs⟩

/-- C2 exhibit (the code violates the claim): for `negF` — a `Not` over a
leaf with declared bounds `[0, 1]` and the feasible signal value `1` — the
encoder returns the child's pair `(0, 1)` unchanged while emitting
`spec == -spec_not` with `spec_not == 1` (see `negM`, where the `spec`
variable is moreover declared with those same wrong variable bounds), so
the robustness value enforced by the constraints is `-1`, strictly below
the returned lower bound `0`. -/
theorem not_bounds_violation :
    add_stl_constr Model.empty "spec" negF 0 none = .ok (some ("spec", 0, 1), negM) ∧
    robValue negF 0 = some (-1) ∧ ((-1 : ℚ) < 0) := by
  refine ⟨?_, ?_, by norm_num⟩
  · simp [add_stl_constr, childTree, negF, negM, Model.empty, bind, Except.bind,
      pure, Except.pure, startOf]
    try decide
  · simp [robValue, negF]

/-- C3: encoding `Not(Not(phi))` with label `label` at time `t` is the very
same encoder call as encoding `phi` directly with label `label` at time `t`
— identical variables and constraints, no intermediate variable for the
eliminated pair — with the warm-start tree descended two levels to match
(an absent tree stays absent). -/
theorem double_negation_elided (φ : Formula) (m : Model) (label : String) (t : Int)
    (tr cnode : RTree) (c2 : Option RTree)
    (h1 : tr.children.get? 0 = some (some cnode))
    (h2 : cnode.children.get? 0 = some c2) :
    add_stl_constr m label (.not (.not φ)) t (some tr) = add_stl_constr m label φ t c2 ∧
    add_stl_constr m label (.not (.not φ)) t none = add_stl_constr m label φ t none := by
  constructor
  · rw [add_stl_constr.eq_2]
    have hc1 : childTree (some tr) 0 = .ok (some cnode) := by
      simp only [childTree]
      rw [h1]
    have hc2 : childTree (some cnode) 0 = .ok c2 := by
      simp only [childTree]
      rw [h2]
    simp only [hc1, hc2, bind, Except.bind]
  · rw [add_stl_constr.eq_2]
    simp only [show childTree (none : Option RTree) 0 = .ok none from rfl, bind, Except.bind]

/-- C3 witness: double negation over `defLeaf` with a three-level tree. -/
theorem double_negation_elided_witness :
    (add_stl_constr Model.empty "y" (.not (.not defLeaf)) 0
        (some (RTree.node 5 none [some (RTree.node 6 none [some (RTree.node 7 none [])])]))
      = add_stl_constr Model.empty "y" defLeaf 0 (some (RTree.node 7 none []))) ∧
    (add_stl_constr Model.empty "y" (.not (.not defLeaf)) 0 none
      = add_stl_constr Model.empty "y" defLeaf 0 none) :=
  double_negation_elided defLeaf Model.empty "y" 0 _ _ _ rfl rfl

/-- C4: an `Always` (resp. `Eventually`) node with window `[a, b]` at base
time `t` encodes its single child once per offset `i` in the inclusive
range `intRange a b` at time `t + i`, using warm-start child `i - a`, and
combines the collected results through the min (resp. max) encoder; a
`Next` node recurses into its child at time `t + 1`, passing the warm-start
tree through unchanged. -/
theorem window_and_next_expansion (m : Model) (label : String) (a b : Int) (g : Formula)
    (t : Int) (tree : Option RTree) :
    (add_stl_constr m label (.always a b g) t tree
      = (do
          let xbm ← specWindowCalls m label "alw" g a (intRange a b) t tree
          Except.ok (finishMinMax xbm.2.2 label true xbm.1 xbm.2.1 tree))) ∧
    (add_stl_constr m label (.eventually a b g) t tree
      = (do
          let xbm ← specWindowCalls m label "eve" g a (intRange a b) t tree
          Except.ok (finishMinMax xbm.2.2 label false xbm.1 xbm.2.1 tree))) ∧
    (add_stl_constr m label (.next g) t tree = add_stl_constr m label g (t + 1) tree) := by
  have hr : (List.range ((b + 1 - a).toNat)).map (fun u => a + ((0 + u : Nat) : Int))
      = intRange a b := by
    have hfun : (fun u : Nat => a + ((0 + u : Nat) : Int)) = (fun k : Nat => a + (k : Int)) := by
      funext u
      norm_num
    rw [hfun, intRange]
  refine ⟨?_, ?_, ?_⟩
  · rw [add_stl_constr.eq_6, window_spec g label "alw" ((b + 1 - a).toNat) 0 m a t tree, hr]
  · rw [add_stl_constr.eq_7, window_spec g label "eve" ((b + 1 - a).toNat) 0 m a t tree, hr]
  · rw [add_stl_constr.eq_8]

/-- C5: children (or window offsets) whose encoding returns `None` are
skipped: if all of them are undefined the node itself returns `(None, None)`
and creates no variables or constraints (the model is returned untouched),
and if at least one child is encoded, the node's variable is produced by the
min/max encoder from exactly the non-`None` collected subset. -/
theorem none_children_policy (m m₁ : Model) (label : String) (t : Int)
    (args : List Formula) (a b : Int) (g : Formula)
    (x0 : String) (xx : List String) (bd0 : ℚ × ℚ) (brest : List (ℚ × ℚ)) :
    ((∀ ff ∈ args, boundsOf ff t = none) →
      add_stl_constr m label (.and args) t none = .ok (none, m) ∧
      add_stl_constr m label (.or args) t none = .ok (none, m)) ∧
    ((∀ j : Nat, j < (b + 1 - a).toNat → boundsOf g (t + (a + (j : Int))) = none) →
      add_stl_constr m label (.always a b g) t none = .ok (none, m) ∧
      add_stl_constr m label (.eventually a b g) t none = .ok (none, m)) ∧
    (encodeArgs m label "and" args t none 0 = .ok (x0 :: xx, bd0 :: brest, m₁) →
      ∃ lo hi, add_stl_constr m label (.and args) t none
        = .ok (some (label, lo, hi),
            (add_min_constr m₁ label (x0 :: xx) (max |lo| |hi|) false none none).2)) ∧
    (encodeArgs m label "or" args t none 0 = .ok (x0 :: xx, bd0 :: brest, m₁) →
      ∃ lo hi, add_stl_constr m label (.or args) t none
        = .ok (some (label, lo, hi),
            (add_max_constr m₁ label (x0 :: xx) (max |lo| |hi|) false none none).2)) ∧
    (encodeWindow m label "alw" g a t none ((b + 1 - a).toNat) 0
        = .ok (x0 :: xx, bd0 :: brest, m₁) →
      ∃ lo hi, add_stl_constr m label (.always a b g) t none
        = .ok (some (label, lo, hi),
            (add_min_constr m₁ label (x0 :: xx) (max |lo| |hi|) false none none).2)) ∧
    (encodeWindow m label "eve" g a t none ((b + 1 - a).toNat) 0
        = .ok (x0 :: xx, bd0 :: brest, m₁) →
      ∃ lo hi, add_stl_constr m label (.eventually a b g) t none
        = .ok (some (label, lo, hi),
            (add_max_constr m₁ label (x0 :: xx) (max |lo| |hi|) false none none).2)) := by
  refine ⟨?_, ?_, ?_, ?_, ?_, ?_⟩
  · intro hall
    have hcb : collectBounds args t = [] := collectBounds_eq_nil t args hall
    constructor
    · exact encode_none_result _ m label t (by simp [boundsOf, hcb, combineBounds])
    · exact encode_none_result _ m label t (by simp [boundsOf, hcb, combineBounds])
  · intro hall
    have hwb : windowBounds g a t ((b + 1 - a).toNat) 0 = [] := by
      refine windowBounds_eq_nil g a t _ 0 ?_
      intro u hu
      have := hall u hu
      simpa using this
    constructor
    · exact encode_none_result _ m label t (by simp [boundsOf, hwb, combineBounds])
    · exact encode_none_result _ m label t (by simp [boundsOf, hwb, combineBounds])
  · intro h
    exact ⟨_, _, and_finish m m₁ label t args (x0 :: xx) bd0 brest h⟩
  · intro h
    exact ⟨_, _, or_finish m m₁ label t args (x0 :: xx) bd0 brest h⟩
  · intro h
    exact ⟨_, _, alw_finish m m₁ label t a b g (x0 :: xx) bd0 brest h⟩
  · intro h
    exact ⟨_, _, eve_finish m m₁ label t a b g (x0 :: xx) bd0 brest h⟩

/-- C5 witness: over `[undefLeaf]` everything is undefined and the `And`
node returns `(None, None)` leaving the model untouched, while over
`[undefLeaf, defLeaf]` the undefined child is skipped and the variable is
produced from the one-element subset `["w_and1"]` (see `wArgsM`). -/
theorem none_children_policy_witness :
    (add_stl_constr Model.empty "w" (.and [undefLeaf]) 0 none = .ok (none, Model.empty) ∧
      add_stl_constr Model.empty "w" (.or [undefLeaf]) 0 none = .ok (none, Model.empty)) ∧
    (encodeArgs Model.empty "w" "and" [undefLeaf, defLeaf] 0 none 0
        = .ok (["w_and1"], [((1 : ℚ), (4 : ℚ))], wArgsM) ∧
      ∃ lo hi, add_stl_constr Model.empty "w" (.and [undefLeaf, defLeaf]) 0 none
        = .ok (some ("w", lo, hi),
            (add_min_constr wArgsM "w" ["w_and1"] (max |lo| |hi|) false none none).2)) := by
  have hargs : encodeArgs Model.empty "w" "and" [undefLeaf, defLeaf] 0 none 0
      = .ok (["w_and1"], [((1 : ℚ), (4 : ℚ))], wArgsM) := by
    simp [encodeArgs, add_stl_constr, childTree, defLeaf, undefLeaf, wArgsM, Model.empty,
      bind, Except.bind, pure, Except.pure, startOf]
    decide
  refine ⟨(none_children_policy Model.empty Model.empty "w" 0 [undefLeaf] 0 0 undefLeaf
      "" [] (0, 0) []).1 ?_, hargs,
    (none_children_policy Model.empty wArgsM "w" 0 [undefLeaf, defLeaf] 0 0 undefLeaf
      "w_and1" [] ((1 : ℚ), (4 : ℚ)) []).2.2.1 hargs⟩
  intro ff hff
  have : ff = undefLeaf := by simpa using hff
  rw [this]
  simp [boundsOf, undefLeaf]

/-- C6: running the encoder once with a shape-matching warm-start tree and
once with no tree produces the same returned result and models of identical
shape — the same variable names, lower/upper bounds, binary kinds and
objective coefficients and the same constraints, so the tree influences
only start attributes — and the treeless run leaves the start of every
variable it adds unset instead of raising an error. -/
theorem warm_start_only_starts (f : Formula) (tr : RTree) (m : Model) (label : String)
    (t : Int) (h : Matches tr f) :
    ∃ res m₁ m₂,
      add_stl_constr m label f t (some tr) = .ok (res, m₁) ∧
      add_stl_constr m label f t none = .ok (res, m₂) ∧
      m₁.shape = m₂.shape ∧
      (∀ v ∈ m₂.vars, v ∈ m.vars ∨ v.start = none) := by
  obtain ⟨m₁, m₂, h1, h2, h3, _, h5⟩ := encode_sim f m m label t (some tr) rfl (.some tr f h)
  exact ⟨bres f t label, m₁, m₂, h1, h2, h3, h5⟩

/-- C6 witness: a one-argument `And` with a matching two-level tree. -/
theorem warm_start_only_starts_witness :
    ∃ res m₁ m₂,
      add_stl_constr Model.empty "w" (.and [defLeaf]) 0
          (some (RTree.node 1 (some 0) [some (RTree.node 2 none [])])) = .ok (res, m₁) ∧
      add_stl_constr Model.empty "w" (.and [defLeaf]) 0 none = .ok (res, m₂) ∧
      m₁.shape = m₂.shape ∧
      (∀ v ∈ m₂.vars, v ∈ Model.empty.vars ∨ v.start = none) :=
  warm_start_only_starts (.and [defLeaf]) _ Model.empty "w" 0
    (Matches.and 1 (some 0) _ _
      (MatchesList.cons _ _ _ _
        (MatchesO.some _ _ (Matches.expr 2 none _ _)) MatchesList.nil))

/-- C7: when `And(phi, psi)` and `Or(phi, psi)` are both encoded at the same
time `t` and both encodings succeed, the returned bounds pairs coincide —
only the min-versus-max direction of the combination differs. -/
theorem and_or_same_bounds (φ ψ : Formula) (t : Int) (m mo m₁ m₂ : Model)
    (la lb ya yo : String) (loa hia lob hib : ℚ)
    (h1 : add_stl_constr m la (.and [φ, ψ]) t none = .ok (some (ya, loa, hia), m₁))
    (h2 : add_stl_constr mo lb (.or [φ, ψ]) t none = .ok (some (yo, lob, hib), m₂)) :
    loa = lob ∧ hia = hib := by
  obtain ⟨n₁, _, ha, _, _, _, _⟩ := encode_sim (.and [φ, ψ]) m m la t none rfl (.none _)
  obtain ⟨n₂, _, hb, _, _, _, _⟩ := encode_sim (.or [φ, ψ]) mo mo lb t none rfl (.none _)
  rw [h1] at ha
  rw [h2] at hb
  have hbo : boundsOf (Formula.or [φ, ψ]) t = boundsOf (Formula.and [φ, ψ]) t := by
    simp [boundsOf]
  cases hcb : boundsOf (Formula.and [φ, ψ]) t with
  | none =>
    rw [bres_eq_none la hcb] at ha
    have e1 := congrArg Prod.fst (Except.ok.inj ha)
    exact absurd e1 (by simp)
  | some bd =>
    have hcb2 : boundsOf (Formula.or [φ, ψ]) t = some bd := hbo.trans hcb
    rw [bres_eq_some la hcb] at ha
    rw [bres_eq_some lb hcb2] at hb
    have e1 := congrArg Prod.fst (Except.ok.inj ha)
    have e2 := congrArg Prod.fst (Except.ok.inj hb)
    simp only [Option.some.injEq, Prod.mk.injEq] at e1 e2
    exact ⟨e1.2.1.trans e2.2.1.symm, e1.2.2.trans e2.2.2.symm⟩

/-- C7 witness: `And(cexE1, cexE2)` and `Or(cexE1, cexE2)` at time `0` both
return the bounds pair `(-1, 3)`. -/
theorem and_or_same_bounds_witness :
    add_stl_constr Model.empty "s" (.and [cexE1, cexE2]) 0 none
      = .ok (some ("s", -1, 3), andM2) ∧
    add_stl_constr Model.empty "s" (.or [cexE1, cexE2]) 0 none
      = .ok (some ("s", -1, 3), orM2) ∧
    ((-1 : ℚ) = -1 ∧ (3 : ℚ) = 3) := by
  have hand : add_stl_constr Model.empty "s" (.and [cexE1, cexE2]) 0 none
      = .ok (some ("s", -1, 3), andM2) := by
    simp [add_stl_constr, encodeArgs, childTree, finishMinMax, combineBounds, add_min_constr,
      Model.empty, cexE1, cexE2, andM2, bind, Except.bind, pure, Except.pure, List.enum,
      List.enumFrom, List.range, List.range.loop, startIxOf]
    try norm_num
    try decide
  have hor : add_stl_constr Model.empty "s" (.or [cexE1, cexE2]) 0 none
      = .ok (some ("s", -1, 3), orM2) := by
    simp [add_stl_constr, encodeArgs, childTree, finishMinMax, combineBounds, add_max_constr,
      Model.empty, cexE1, cexE2, orM2, bind, Except.bind, pure, Except.pure, List.enum,
      List.enumFrom, List.range, List.range.loop, startIxOf]
    try norm_num
    try decide
  exact ⟨hand, hor, and_or_same_bounds cexE1 cexE2 0 Model.empty Model.empty andM2 orM2
    "s" "s" "s" "s" (-1) 3 (-1) 3 hand hor⟩

/-- C8 (amended: only a tree with FEWER children than the encoder consumes
fails; surplus children are silently ignored, see `surplus_tree_accepted`):
when the warm-start tree node has fewer children than an `And`/`Or` node's
argument count, or fewer expanded offsets than the window `[a, b]`
requires, encoding fails fast with a structural error (`IndexError`) rather
than silently truncating. -/
theorem short_tree_fails (m : Model) (label : String) (t : Int) (args : List Formula)
    (a b : Int) (g : Formula) (tnode : RTree) :
    (tnode.children.length < args.length →
      (∃ e, add_stl_constr m label (.and args) t (some tnode) = .error e) ∧
      (∃ e, add_stl_constr m label (.or args) t (some tnode) = .error e)) ∧
    (tnode.children.length < (b + 1 - a).toNat →
      (∃ e, add_stl_constr m label (.always a b g) t (some tnode) = .error e) ∧
      (∃ e, add_stl_constr m label (.eventually a b g) t (some tnode) = .error e)) := by
  constructor
  · intro hlt
    have hne : args ≠ [] := by
      intro h0
      rw [h0] at hlt
      simp at hlt
    obtain ⟨e1, he1⟩ := encodeArgs_short args 0 m label "and" t tnode (by simpa using hlt) hne
    obtain ⟨e2, he2⟩ := encodeArgs_short args 0 m label "or" t tnode (by simpa using hlt) hne
    exact ⟨⟨e1, by rw [add_stl_constr.eq_4]; simp only [he1, bind, Except.bind]⟩,
      ⟨e2, by rw [add_stl_constr.eq_5]; simp only [he2, bind, Except.bind]⟩⟩
  · intro hlt
    have hk : (b + 1 - a).toNat ≠ 0 := by omega
    obtain ⟨e1, he1⟩ :=
      encodeWindow_short g ((b + 1 - a).toNat) 0 m label "alw" a t tnode (by simpa using hlt) hk
    obtain ⟨e2, he2⟩ :=
      encodeWindow_short g ((b + 1 - a).toNat) 0 m label "eve" a t tnode (by simpa using hlt) hk
    exact ⟨⟨e1, by rw [add_stl_constr.eq_6]; simp only [he1, bind, Except.bind]⟩,
      ⟨e2, by rw [add_stl_constr.eq_7]; simp only [he2, bind, Except.bind]⟩⟩

/-- C8 counterexample: `fatTree` has the wrong number of children for the
two-argument `And` it accompanies (three instead of two), yet encoding
succeeds silently instead of failing fast. -/
theorem surplus_tree_accepted :
    (add_stl_constr Model.empty "s" (.and [cexE1, cexE2]) 0 (some fatTree)).isOk = true := by
  simp [add_stl_constr, encodeArgs, childTree, finishMinMax, combineBounds, add_min_constr,
    Model.empty, cexE1, cexE2, fatTree, RTree.children, RTree.robustness, RTree.index,
    bind, Except.bind, pure, Except.pure, List.enum, List.enumFrom, List.range,
    List.range.loop, startIxOf, Except.isOk, Except.toBool]

/-- C8 witness: a one-child tree under a two-argument `And` and under a
three-offset `Always` window raises `IndexError`. -/
theorem short_tree_fails_witness :
    ((RTree.node 0 none [none]).children.length < [cexE1, cexE2].length ∧
      ∃ e, add_stl_constr Model.empty "s" (.and [cexE1, cexE2]) 0
        (some (RTree.node 0 none [none])) = .error e) ∧
    ((RTree.node 0 none [none]).children.length < ((2 : Int) + 1 - 0).toNat ∧
      ∃ e, add_stl_constr Model.empty "s" (.always 0 2 cexE1) 0
        (some (RTree.node 0 none [none])) = .error e) := by
  have h := short_tree_fails Model.empty "s" 0 [cexE1, cexE2] 0 2 cexE1
    (RTree.node 0 none [none])
  have hlen1 : (RTree.node (0 : ℚ) none [none]).children.length < [cexE1, cexE2].length := by
    simp [RTree.children]
  have hlen2 : (RTree.node (0 : ℚ) none [none]).children.length < ((2 : Int) + 1 - 0).toNat := by
    simp [RTree.children]
  exact ⟨⟨hlen1, (h.1 hlen1).1⟩, ⟨hlen2, (h.2 hlen2).1⟩⟩

/-- C9: when `build_and_solve` is given a specification and the recursive
encoder returns `None` for it (no part of the horizon had any defined
signal), the call raises an error (`None.setAttr` → `AttributeError`)
instead of proceeding silently to solve. -/
theorem undefined_spec_raises (f : Formula) (me : Model → Int → Model) (obj : ℚ)
    (tree : Option RTree) (m₁ : Model)
    (h : add_stl_constr (me Model.empty (max 0 f.horizon + 1)) "spec" f 0 tree
      = .ok (none, m₁)) :
    build_and_solve (some f) me obj tree = .error .attrError := by
  have hunf : build_and_solve (some f) me obj tree
      = (add_stl_constr (me Model.empty (max 0 f.horizon + 1)) "spec" f 0 tree).bind
          (fun rm =>
            match rm.1 with
            | some ybd => .ok (rm.2.setObjCoeff ybd.1 obj)
            | none => .error .attrError) := rfl
  rw [hunf, h]
  rfl

/-- C9 witness: a specification whose only leaf is everywhere-undefined. -/
theorem undefined_spec_raises_witness :
    build_and_solve (some undefLeaf) (fun mm _ => mm) 1 none = .error .attrError :=
  undefined_spec_raises undefLeaf (fun mm _ => mm) 1 none Model.empty
    (add_expr_none Model.empty "spec" _ none rfl)

/-- C10: `build_and_solve` always encodes the specification with label
`"spec"` at base time `0` (the source call omits the time argument, whose
default is `0`); the orchestrator exposes no way to select another base
time. -/
theorem orchestrator_label_time_zero (f : Formula) (me : Model → Int → Model) (obj : ℚ)
    (tree : Option RTree) :
    build_and_solve (some f) me obj tree
      = (add_stl_constr (me Model.empty (max 0 f.horizon + 1)) "spec" f 0 tree).bind
          (fun rm =>
            match rm.1 with
            | some ybd => .ok (rm.2.setObjCoeff ybd.1 obj)
            | none => .error .attrError) := rfl

end StlMilp
